import Mathlib

/-!
Verification of the time-expression finder `time_finder.py`.

The module recognizes time-of-day expressions in a sentence with a catalog of
fifteen regular expressions, resolves overlapping raw matches by a greedy
longest-match algorithm, and normalizes the surviving matches into fixed-schema
records.  This file gives a shallow embedding of that pipeline: a backtracking
regular-expression engine with Python `re` semantics restricted to the
constructs the catalog uses (character classes, concatenation, preferred-order
alternation, greedy class repetition, named groups, single-character negative
lookahead, word boundaries), the pattern catalog itself, the candidate scanner,
the overlap resolver, and the field normalizer.
-/

namespace TimeFinder

/-! ### Character helpers (Python `\d`, `\s`, `\w` over the ASCII inputs) -/

def digitChars : List Char := ['0','1','2','3','4','5','6','7','8','9']

def spaceChars : List Char := [' ', '\t', '\n', '\x0b', '\x0c', '\r']

def isWordCh (c : Char) : Bool :=
  ('a' ≤ c && c ≤ 'z') || ('A' ≤ c && c ≤ 'Z') || ('0' ≤ c && c ≤ '9') || c == '_'

def isWordOpt : Option Char → Bool
  | none => false
  | some c => isWordCh c

def isWordHead : List Char → Bool
  | [] => false
  | c :: _ => isWordCh c

/-! ### Regular expressions

The abstract syntax covers exactly the constructs appearing in the catalog.
Repetition (`*`, `+`) only ever applies to a character class in the source
patterns, so it is restricted to classes here, which keeps matching total.
-/

inductive Regex where
  | eps : Regex
  | cls (cs : List Char) : Regex
  | seq (a b : Regex) : Regex
  | alt (a b : Regex) : Regex
  | starCls (cs : List Char) : Regex
  | plusCls (cs : List Char) : Regex
  | group (name : String) (a : Regex) : Regex
  | nla (cs : List Char) : Regex
  | wb : Regex
deriving DecidableEq

/-- One success of a match attempt: the characters consumed, the character
preceding the remainder (needed by later word-boundary tests), the remaining
input, and the named-group captures collected along the way. -/
structure MRes where
  consumed : List Char
  newPrev : Option Char
  rest : List Char
  caps : List (String × List Char)
deriving DecidableEq

def lastPrev (prev : Option Char) (consumed : List Char) : Option Char :=
  match consumed.getLast? with
  | some c => some c
  | none => prev

/-- Maximal run of characters from class `cs` at the head of `s`. -/
def runLen (cs : List Char) : List Char → Nat
  | [] => 0
  | c :: t => if cs.contains c then runLen cs t + 1 else 0

/-- All successes of matching `re` at the head of `s`, in Python backtracking
preference order: alternation tries the left branch first, repetition is
greedy, and the engine never reorders successes.  `prev` is the character
preceding `s` in the surrounding text (for `\b`). -/
def mtch : Regex → Option Char → List Char → List MRes
  | .eps, prev, s => [⟨[], prev, s, []⟩]
  | .cls cs, _, s =>
      match s with
      | [] => []
      | c :: t => if cs.contains c then [⟨[c], some c, t, []⟩] else []
  | .seq a b, prev, s =>
      (mtch a prev s).flatMap (fun r1 =>
        (mtch b r1.newPrev r1.rest).map (fun r2 =>
          ⟨r1.consumed ++ r2.consumed, r2.newPrev, r2.rest, r1.caps ++ r2.caps⟩))
  | .alt a b, prev, s => mtch a prev s ++ mtch b prev s
  | .starCls cs, prev, s =>
      ((List.range (runLen cs s + 1)).reverse).map (fun k =>
        ⟨s.take k, lastPrev prev (s.take k), s.drop k, []⟩)
  | .plusCls cs, prev, s =>
      ((List.range (runLen cs s)).reverse).map (fun k =>
        ⟨s.take (k + 1), lastPrev prev (s.take (k + 1)), s.drop (k + 1), []⟩)
  | .group n a, prev, s =>
      (mtch a prev s).map (fun r => ⟨r.consumed, r.newPrev, r.rest, (n, r.consumed) :: r.caps⟩)
  | .nla cs, prev, s =>
      match s with
      | [] => [⟨[], prev, s, []⟩]
      | c :: _ => if cs.contains c then [] else [⟨[], prev, s, []⟩]
  | .wb, prev, s =>
      if isWordOpt prev != isWordHead s then [⟨[], prev, s, []⟩] else []

/-- Python `regex.match`: the preferred (first) success anchored at the head. -/
def pymatch (re : Regex) (prev : Option Char) (s : List Char) : Option MRes :=
  (mtch re prev s).head?

/-- Python `regex.search`: the match at the leftmost position that has one. -/
def pysearchAux (re : Regex) : Nat → Option Char → List Char → Option MRes
  | 0, _, _ => none
  | fuel + 1, prev, s =>
      match pymatch re prev s with
      | some r => some r
      | none =>
          match s with
          | [] => none
          | c :: t => pysearchAux re fuel (some c) t

def pysearch (re : Regex) (s : List Char) : Option MRes :=
  pysearchAux re (s.length + 1) none s

/-- Python `regex.finditer`: scan left to right, yield the leftmost match,
continue after its end (advancing one position past an empty match). -/
def finditerAux (re : Regex) : Nat → Option Char → List Char → Nat → List (Nat × Nat × String)
  | 0, _, _, _ => []
  | fuel + 1, prev, s, pos =>
      match pymatch re prev s with
      | some r =>
          if r.consumed = [] then
            (pos, pos, "") ::
              (match s with
               | [] => []
               | c :: t => finditerAux re fuel (some c) t (pos + 1))
          else
            (pos, pos + r.consumed.length, String.mk r.consumed) ::
              finditerAux re fuel r.newPrev r.rest (pos + r.consumed.length)
      | none =>
          match s with
          | [] => []
          | c :: t => finditerAux re fuel (some c) t (pos + 1)

def finditer (re : Regex) (s : List Char) : List (Nat × Nat × String) :=
  finditerAux re (s.length + 1) none s 0

/-! ### The pattern catalog

Each definition below transcribes the regex string of the same name in
`time_finder.py`.  Patterns compiled with `re.IGNORECASE` in the source
(`_regex_h24ms_with_timezone`, `_regex_h24ms_with_gmt_delta`) have the case
insensitivity baked into their character classes and literals.
-/

def rseq (l : List Regex) : Regex := l.foldr Regex.seq Regex.eps

def ropt (a : Regex) : Regex := Regex.alt a Regex.eps

def rchar (c : Char) : Regex := Regex.cls [c]

/-- Case-sensitive literal string. -/
def rlit (str : String) : Regex := rseq (str.toList.map rchar)

/-- Case-insensitive literal string (for patterns compiled with IGNORECASE). -/
def rlitCI (str : String) : Regex :=
  rseq (str.toList.map (fun c => Regex.cls [c.toLower, c.toUpper]))

/-- Alternation over a list, preferring earlier entries (the empty class tail
never matches). -/
def ralts (l : List Regex) : Regex := l.foldr Regex.alt (Regex.cls [])

def g (name : String) (a : Regex) : Regex := Regex.group name a

def d01 : List Char := ['0','1']
def d02 : List Char := ['0','1','2']
def d04 : List Char := ['0','1','2','3','4']
def d05 : List Char := ['0','1','2','3','4','5']
def d19 : List Char := ['1','2','3','4','5','6','7','8','9']

/-- Source `[.:][0-9]+` — fractional seconds. -/
def _str_frac : Regex := Regex.seq (Regex.cls ['.', ':']) (Regex.plusCls digitChars)

/-- Source `(0?[1-9]|1[0-2])` — hours, 12-hour clock. -/
def _str_h12 : Regex :=
  Regex.alt (Regex.seq (ropt (rchar '0')) (Regex.cls d19))
            (Regex.seq (rchar '1') (Regex.cls d02))

/-- Source `([01][0-9]|2[0-4])` — hours, 24-hour clock. -/
def _str_h24 : Regex :=
  Regex.alt (Regex.seq (Regex.cls d01) (Regex.cls digitChars))
            (Regex.seq (rchar '2') (Regex.cls d04))

/-- Source `[aApP]\.?[mM]\.?` — am or pm. -/
def _str_am_pm : Regex :=
  rseq [Regex.cls ['a','A','p','P'], ropt (rchar '.'), Regex.cls ['m','M'], ropt (rchar '.')]

/-- Source `[0-5][0-9]` — minutes. -/
def _str_MM : Regex := Regex.seq (Regex.cls d05) (Regex.cls digitChars)

/-- Source `[:]` — separator. -/
def _str_sep : Regex := rchar ':'

/-- Source `\b[tT]?` — optional time designator. -/
def _str_t : Regex := Regex.seq Regex.wb (ropt (Regex.cls ['t','T']))

/-- World time-zone abbreviations (with `Z` for Zulu), in source order. -/
def tzAbbrevs : List String :=
  ["ACDT","ACST","ACT","ACWST","ADT","AEDT","AEST","AFT","AKDT",
   "AKST","AMST","AMT","ART","AST","AWST","AZOST","AZOT","AZT","BDT",
   "BIOT","BIT","BOT","BRST","BRT","BST","BTT","CAT","CCT","CDT","CEST",
   "CET","CHADT","CHAST","CHOT","CHOST","CHST","CHUT","CIST","CIT",
   "CKT","CLST","CLT","COST","COT","CST","CT","CVT","CWST","CXT","DAVT",
   "DDUT","DFT","EASST","EAST","EAT","ECT","EDT","EEST","EET","EGST",
   "EGT","EIT","EST","FET","FJT","FKST","FKT","FNT","GALT","GAMT","GET",
   "GFT","GILT","GIT","GMT","GST","GYT","HDT","HAEC","HST","HKT","HMT",
   "HOVST","HOVT","ICT","IDLW","IDT","IOT","IRDT","IRKT","IRST","IST",
   "JST","KGT","KOST","KRAT","KST","LHST","LINT","MAGT","MART","MAWT",
   "MDT","MET","MEST","MHT","MIST","MIT","MMT","MSK","MST","MUT","MVT",
   "MYT","NCT","NDT","NFT","NPT","NST","NT","NUT","NZDT","NZST","OMST",
   "ORAT","PDT","PET","PETT","PGT","PHOT","PHT","PKT","PMDT","PMST",
   "PONT","PST","PYST","PYT","RET","ROTT","SAKT","SAMT","SAST","SBT",
   "SCT","SDT","SGT","SLST","SRET","SRT","SST","SYOT","THAT","THA","TFT",
   "TJT","TKT","TLT","TMT","TRT","TOT","TVT","ULAST","ULAT","USZ1","UTC",
   "UYST","UYT","UZT","VET","VLAT","VOLT","VOST","VUT","WAKT","WAST",
   "WAT","WEST","WET","WIT","WST","YAKT","YEKT","Z"]

/-- Source `(ACDT|ACST|...|Z)`, matched case-insensitively (it only occurs inside the
IGNORECASE-compiled timezone pattern). -/
def _str_time_zone_abbrev : Regex := ralts (tzAbbrevs.map rlitCI)

/-- Source `\b(?P<hours>h12)\s*(?P<am_pm>am_pm)` — hour with am/pm. -/
def _regex_h12_am_pm : Regex :=
  rseq [Regex.wb, g "hours" _str_h12, Regex.starCls spaceChars, g "am_pm" _str_am_pm]

/-- Source `\b(?P<hours>h12)[:](?P<minutes>MM(?!\d))`. -/
def _regex_h12m : Regex :=
  rseq [Regex.wb, g "hours" _str_h12, _str_sep,
        g "minutes" (Regex.seq _str_MM (Regex.nla digitChars))]

/-- Source `\b(?P<hours>h12)[:](?P<minutes>MM)\s*(?P<am_pm>am_pm(?!\d))`. -/
def _regex_h12m_am_pm : Regex :=
  rseq [Regex.wb, g "hours" _str_h12, _str_sep, g "minutes" _str_MM,
        Regex.starCls spaceChars, g "am_pm" (Regex.seq _str_am_pm (Regex.nla digitChars))]

/-- Source `\b(?P<hours>h12)[:](?P<minutes>MM)[:](?P<seconds>MM)\s*(?P<am_pm>am_pm)`. -/
def _regex_h12ms_am_pm : Regex :=
  rseq [Regex.wb, g "hours" _str_h12, _str_sep, g "minutes" _str_MM, _str_sep,
        g "seconds" _str_MM, Regex.starCls spaceChars, g "am_pm" _str_am_pm]

/-- Source `\b(?P<hours>h12):(?P<minutes>MM):(?P<seconds>MM)(?P<frac>frac)\s*(?P<am_pm>am_pm)`. -/
def _regex_h12msf_am_pm : Regex :=
  rseq [Regex.wb, g "hours" _str_h12, rchar ':', g "minutes" _str_MM, rchar ':',
        g "seconds" _str_MM, g "frac" _str_frac, Regex.starCls spaceChars,
        g "am_pm" _str_am_pm]

/-- Source `\b[tT]?(?P<hours>h24)[:](?P<minutes>MM(?!\d))`. -/
def _regex_h24m : Regex :=
  rseq [_str_t, g "hours" _str_h24, _str_sep,
        g "minutes" (Regex.seq _str_MM (Regex.nla digitChars))]

/-- Source `\b[tT]?(?P<hours>h24)(?P<minutes>MM(?!\d))`. -/
def _regex_h24m_no_colon : Regex :=
  rseq [_str_t, g "hours" _str_h24,
        g "minutes" (Regex.seq _str_MM (Regex.nla digitChars))]

/-- Source `\b[tT]?(?P<hours>h24)[:](?P<minutes>MM)[:](?P<seconds>MM(?!\d))`. -/
def _regex_h24ms : Regex :=
  rseq [_str_t, g "hours" _str_h24, _str_sep, g "minutes" _str_MM, _str_sep,
        g "seconds" (Regex.seq _str_MM (Regex.nla digitChars))]

/-- Source `\b[tT]?(?P<hours>h24)(?P<minutes>MM)(?P<seconds>MM(?!\d))`. -/
def _regex_h24ms_no_colon : Regex :=
  rseq [_str_t, g "hours" _str_h24, g "minutes" _str_MM,
        g "seconds" (Regex.seq _str_MM (Regex.nla digitChars))]

/-- Source `\b[tT]?(?P<hours>h24)(?P<minutes>MM)(?P<seconds>MM)\s*(?P<timezone>tz)`,
compiled with IGNORECASE. -/
def _regex_h24ms_with_timezone : Regex :=
  rseq [_str_t, g "hours" _str_h24, g "minutes" _str_MM, g "seconds" _str_MM,
        Regex.starCls spaceChars, g "timezone" _str_time_zone_abbrev]

/-- Source `(GMT|UTC)?[-+]h24:?(MM)?` — the delta sub-expression (IGNORECASE when
compiled inside `_regex_h24ms_with_gmt_delta`). -/
def _str_gmt_delta : Regex :=
  rseq [ropt (Regex.alt (rlitCI "GMT") (rlitCI "UTC")), Regex.cls ['-','+'],
        _str_h24, ropt (rchar ':'), ropt _str_MM]

/-- Source `\b[tT]?(?P<hours>h24)(?P<minutes>MM)(?P<seconds>MM)\s*(?P<gmt_delta>delta)`,
compiled with IGNORECASE. -/
def _regex_h24ms_with_gmt_delta : Regex :=
  rseq [_str_t, g "hours" _str_h24, g "minutes" _str_MM, g "seconds" _str_MM,
        Regex.starCls spaceChars, g "gmt_delta" _str_gmt_delta]

/-- Source `(GMT|UTC)?(?P<gmt_sign>[-+])(?P<gmt_hours>h24):?((?P<gmt_minutes>MM))?` —
deciphers the gmt_delta components; compiled case-sensitively. -/
def _regex_gmt : Regex :=
  rseq [ropt (Regex.alt (rlit "GMT") (rlit "UTC")),
        g "gmt_sign" (Regex.cls ['-','+']), g "gmt_hours" _str_h24,
        ropt (rchar ':'), ropt (g "gmt_minutes" _str_MM)]

/-- Source `\b[tT]?(?P<hours>h24)[:](?P<minutes>MM)[:](?P<seconds>MM)(?P<frac>frac)`. -/
def _regex_h24msf : Regex :=
  rseq [_str_t, g "hours" _str_h24, _str_sep, g "minutes" _str_MM, _str_sep,
        g "seconds" _str_MM, g "frac" _str_frac]

/-- Source `([01][0-9]|2[0-4])` — ISO hours (same text as `_str_h24`). -/
def _str_iso_hh : Regex :=
  Regex.alt (Regex.seq (Regex.cls d01) (Regex.cls digitChars))
            (Regex.seq (rchar '2') (Regex.cls d04))

/-- Source `[0-5][0-9]` — ISO minutes. -/
def _str_iso_mm : Regex := Regex.seq (Regex.cls d05) (Regex.cls digitChars)

/-- Source `([0-5][0-9]|60)` — ISO seconds (60 = leap second). -/
def _str_iso_ss : Regex :=
  Regex.alt (Regex.seq (Regex.cls d05) (Regex.cls digitChars)) (rlit "60")

/-- Source `(?P<gmt_hours>hh)(:?(?P<gmt_minutes>mm))?`. -/
def _str_iso_zone_hm : Regex :=
  Regex.seq (g "gmt_hours" _str_iso_hh)
    (ropt (Regex.seq (ropt (rchar ':')) (g "gmt_minutes" _str_iso_mm)))

/-- Source `((?P<timezone>Z)|(?P<gmt_sign>[-+])zone_hm)` — note the `Z` is
case-sensitive: the ISO patterns are compiled without IGNORECASE. -/
def _str_iso_zone : Regex :=
  Regex.alt (g "timezone" (rchar 'Z'))
            (Regex.seq (g "gmt_sign" (Regex.cls ['-','+'])) _str_iso_zone_hm)

/-- Source `\b(?P<hours>hh(?!\d))((?P<gmt_delta>zone))?`. -/
def _regex_iso_hh : Regex :=
  rseq [Regex.wb, g "hours" (Regex.seq _str_iso_hh (Regex.nla digitChars)),
        ropt (g "gmt_delta" _str_iso_zone)]

/-- Source `\b(?P<hours>hh)(?P<minutes>mm(?!\d))((?P<gmt_delta>zone))?`. -/
def _regex_iso_hhmm : Regex :=
  rseq [Regex.wb, g "hours" _str_iso_hh,
        g "minutes" (Regex.seq _str_iso_mm (Regex.nla digitChars)),
        ropt (g "gmt_delta" _str_iso_zone)]

/-- Source `\b(?P<hours>hh):?((?P<minutes>mm)):?((?P<seconds>ss))((?P<frac>\.\d+))?`. -/
def _str_iso_hms : Regex :=
  rseq [Regex.wb, g "hours" _str_iso_hh, ropt (rchar ':'), g "minutes" _str_iso_mm,
        ropt (rchar ':'), g "seconds" _str_iso_ss,
        ropt (g "frac" (Regex.seq (rchar '.') (Regex.plusCls digitChars)))]

/-- Source `iso_hms((?P<gmt_delta>zone))?`. -/
def _regex_iso_time : Regex :=
  Regex.seq _str_iso_hms (ropt (g "gmt_delta" _str_iso_zone))

/-- The catalog, in source scan order. -/
def _regexes : List Regex :=
  [_regex_iso_hhmm,             -- 0
   _regex_iso_hh,               -- 1
   _regex_iso_time,             -- 2
   _regex_h24ms_with_gmt_delta, -- 3
   _regex_h24ms_with_timezone,  -- 4
   _regex_h24ms_no_colon,       -- 5
   _regex_h24m_no_colon,        -- 6
   _regex_h12msf_am_pm,         -- 7
   _regex_h12ms_am_pm,          -- 8
   _regex_h12m_am_pm,           -- 9
   _regex_h12_am_pm,            -- 10
   _regex_h24msf,               -- 11
   _regex_h24ms,                -- 12
   _regex_h24m,                 -- 13
   _regex_h12m]                 -- 14

/-! ### Preprocessor, candidate scanner, overlap resolver, normalizer -/

/-- The bracket characters `( ) { } [ ]` erased by `_clean_sentence`. -/
def _str_brackets : List Char := ['(', ')', '{', '}', '[', ']']

/-- Source `_clean_sentence`: replace every bracket character by a single space. -/
def _clean_sentence (sentence : List Char) : List Char :=
  sentence.map (fun c => if _str_brackets.contains c then ' ' else c)

/-- One raw match candidate (`_Candidate` namedtuple). -/
structure _Candidate where
  start : Nat
  end_ : Nat
  match_text : String
  regex : Regex
deriving DecidableEq

/-- Span length of a candidate (`x.end - x.start`). -/
def clen (c : _Candidate) : Nat := c.end_ - c.start

/-- Apply every catalog pattern to the cleaned sentence, pooling all matches. -/
def scanAll (s : List Char) : List _Candidate :=
  _regexes.flatMap (fun re =>
    (finditer re s).map (fun m => ⟨m.1, m.2.1, m.2.2, re⟩))

/-- Stable insertion (descending span length): a candidate goes after all
earlier candidates of greater or equal length, mirroring Python's stable
`sorted(..., key=length, reverse=True)`. -/
def insertDesc (x : _Candidate) : List _Candidate → List _Candidate
  | [] => [x]
  | y :: t => if clen x ≤ clen y then y :: insertDesc x t else x :: y :: t

def sortLenDesc (l : List _Candidate) : List _Candidate :=
  l.foldl (fun acc x => insertDesc x acc) []

/-- Source `_has_overlap`: do the half-open intervals `[a1, b1)` and `[a2, b2)`
overlap at all? -/
def _has_overlap (a1 b1 a2 b2 : Nat) : Bool :=
  if b2 ≤ a1 then false
  else if a2 ≥ b1 then false
  else true

/-- The inner `j` loop of `_remove_overlap`: scan the remaining candidates,
flag every one that overlaps the current winner's span, and let a strictly
longer flagged candidate replace the winner (updating the comparison span).
Returns the final winner together with the overlap flags, one per scanned
candidate (a flag stands for membership of the Python `overlaps` list). -/
def groupScan (s e : Nat) (winner : _Candidate) : List _Candidate → _Candidate × List Bool
  | [] => (winner, [])
  | cj :: t =>
      if _has_overlap s e cj.start cj.end_ then
        if cj.end_ - cj.start > e - s then
          let r := groupScan cj.start cj.end_ cj t
          (r.1, true :: r.2)
        else
          let r := groupScan s e winner t
          (r.1, true :: r.2)
      else
        let r := groupScan s e winner t
        (r.1, false :: r.2)

/-- Keep the candidates whose flag is `false` (the Python removal of every
index in `overlaps` from the working list). -/
def filterFlags : List _Candidate → List Bool → List _Candidate
  | l, [] => l
  | _ :: t, true :: ft => filterFlags t ft
  | c :: t, false :: ft => c :: filterFlags t ft
  | [], _ :: _ => []

theorem filterFlags_length_le : ∀ (l : List _Candidate) (fl : List Bool),
    (filterFlags l fl).length ≤ l.length := by
  intro l fl
  induction fl generalizing l with
  | nil => simp [filterFlags]
  | cons f ft ih =>
      cases l with
      | nil => simp [filterFlags]
      | cons c t =>
          cases f with
          | true => simpa [filterFlags] using Nat.le_succ_of_le (ih t)
          | false => simpa [filterFlags] using ih t

/-- The outer repeat-until-empty loop of `_remove_overlap`, with explicit fuel
(each pass removes at least the pass's first candidate, so `fuel = length`
always suffices). -/
def _remove_overlap_go : Nat → List _Candidate → List _Candidate
  | 0, _ => []
  | _ + 1, [] => []
  | fuel + 1, c0 :: rest =>
      let r := groupScan c0.start c0.end_ c0 rest
      r.1 :: _remove_overlap_go fuel (filterFlags rest r.2)

/-- Source `_remove_overlap`: resolve a set of candidates (sorted by descending
match length) into non-overlapping matches, keeping the longest match at any
given position. -/
def _remove_overlap (candidates : List _Candidate) : List _Candidate :=
  _remove_overlap_go candidates.length candidates

/-! ### Output records and field normalization -/

def STR_AM : String := "am"
def STR_PM : String := "pm"

/-- The `TimeValue` output record.  The single sentinel `EMPTY_FIELD = None`
of the source is `Option.none`; the schema has exactly the twelve fields of
`TIME_VALUE_FIELDS`. -/
structure TimeValue where
  text : String
  start : Nat
  end_ : Nat
  hours : Option Nat
  minutes : Option Nat
  seconds : Option Nat
  fractional_seconds : Option String
  am_pm : Option String
  timezone : Option String
  gmt_delta_sign : Option String
  gmt_delta_hours : Option Nat
  gmt_delta_minutes : Option Nat
deriving DecidableEq

/-- Python `int` on the digit strings captured by the patterns. -/
def pyint (v : List Char) : Nat :=
  v.foldl (fun a c => a * 10 + (c.toNat - 48)) 0

/-- Populate the three `gmt_delta_*` fields from the captures of the
offset-decomposition pattern `_regex_gmt`. -/
def applyGmt (acc : TimeValue) (kv : String × List Char) : TimeValue :=
  if kv.1 = "gmt_sign" then { acc with gmt_delta_sign := some (String.mk kv.2) }
  else if kv.1 = "gmt_hours" then { acc with gmt_delta_hours := some (pyint kv.2) }
  else if kv.1 = "gmt_minutes" then { acc with gmt_delta_minutes := some (pyint kv.2) }
  else acc

/-- Re-match the raw delta substring against `_regex_gmt` (Python `search`);
on failure the fields keep their current values. -/
def applyGmtDelta (acc : TimeValue) (v : List Char) : TimeValue :=
  match pysearch _regex_gmt v with
  | none => acc
  | some r => r.caps.foldl applyGmt acc

/-- The `groupdict` dispatch of `run`: convert one named capture into its
output field.  Group names outside the handled vocabulary are ignored. -/
def applyGroup (acc : TimeValue) (kv : String × List Char) : TimeValue :=
  if kv.1 = "hours" then { acc with hours := some (pyint kv.2) }
  else if kv.1 = "minutes" then { acc with minutes := some (pyint kv.2) }
  else if kv.1 = "seconds" then { acc with seconds := some (pyint kv.2) }
  else if kv.1 = "frac" then
    { acc with fractional_seconds := some (String.mk (kv.2.drop 1)) }
  else if kv.1 = "am_pm" then
    { acc with am_pm :=
        if kv.2.contains 'a' || kv.2.contains 'A' then some STR_AM else some STR_PM }
  else if kv.1 = "timezone" then
    { acc with timezone := if kv.2 = ['Z'] then some "UTC" else some (String.mk kv.2) }
  else if kv.1 = "gmt_delta" then applyGmtDelta acc kv.2
  else acc

/-- All twelve fields start at the sentinel except the span data. -/
def initRecord (pc : _Candidate) : TimeValue :=
  ⟨pc.match_text, pc.start, pc.end_, none, none, none, none, none, none, none, none, none⟩

/-- Normalize one resolved candidate: re-match its saved text against its
saved pattern (`assert match` in the source is modelled by `none`), then fold
the captures into a record. -/
def normalizeCandidate (pc : _Candidate) : Option TimeValue :=
  match pymatch pc.regex none pc.match_text.toList with
  | none => none
  | some r => some (r.caps.foldl applyGroup (initRecord pc))

def normalizeAll : List _Candidate → Option (List TimeValue)
  | [] => some []
  | pc :: t =>
      match normalizeCandidate pc, normalizeAll t with
      | some r, some rs => some (r :: rs)
      | _, _ => none

/-- Stable insertion (ascending start), mirroring the final stable
`sorted(results, key=start)`. -/
def insertAsc (x : TimeValue) : List TimeValue → List TimeValue
  | [] => [x]
  | y :: t => if y.start ≤ x.start then y :: insertAsc x t else x :: y :: t

def sortStartAsc (l : List TimeValue) : List TimeValue :=
  l.foldl (fun acc x => insertAsc x acc) []

/-- Source `run`: find all time expressions in the sentence.  The result is `none`
exactly when the internal `assert match` would fire. -/
def run (sentence : String) : Option (List TimeValue) :=
  let s := _clean_sentence sentence.toList
  let candidates := scanAll s
  let candidates := sortLenDesc candidates
  let pruned := _remove_overlap candidates
  match normalizeAll pruned with
  | none => none
  | some results => some (sortStartAsc results)

/-! ### Engine facts: every success consumes a prefix of the input -/

theorem mtch_consumes : ∀ (re : Regex) (prev : Option Char) (s : List Char) (r : MRes),
    r ∈ mtch re prev s → s = r.consumed ++ r.rest := by
  intro re
  induction re with
  | eps =>
      intro prev s r h
      simp only [mtch, List.mem_singleton] at h
      subst h; rfl
  | cls cs =>
      intro prev s r h
      cases s with
      | nil => simp [mtch] at h
      | cons c t =>
          simp only [mtch] at h
          split at h
          · simp only [List.mem_singleton] at h; subst h; rfl
          · simp at h
  | seq a b iha ihb =>
      intro prev s r h
      simp only [mtch, List.mem_flatMap, List.mem_map] at h
      obtain ⟨r1, h1, r2, h2, hr⟩ := h
      have e1 := iha prev s r1 h1
      have e2 := ihb r1.newPrev r1.rest r2 h2
      subst hr
      simp only []
      rw [e1, e2, List.append_assoc]
  | alt a b iha ihb =>
      intro prev s r h
      simp only [mtch, List.mem_append] at h
      rcases h with h | h
      · exact iha prev s r h
      · exact ihb prev s r h
  | starCls cs =>
      intro prev s r h
      simp only [mtch, List.mem_map] at h
      obtain ⟨k, _, hr⟩ := h
      subst hr
      exact (List.take_append_drop k s).symm
  | plusCls cs =>
      intro prev s r h
      simp only [mtch, List.mem_map] at h
      obtain ⟨k, _, hr⟩ := h
      subst hr
      exact (List.take_append_drop (k + 1) s).symm
  | group n a ih =>
      intro prev s r h
      simp only [mtch, List.mem_map] at h
      obtain ⟨r1, h1, hr⟩ := h
      subst hr
      exact ih prev s r1 h1
  | nla cs =>
      intro prev s r h
      cases s with
      | nil =>
          simp only [mtch, List.mem_singleton] at h
          subst h; rfl
      | cons c t =>
          simp only [mtch] at h
          split at h
          · simp at h
          · simp only [List.mem_singleton] at h; subst h; rfl
  | wb =>
      intro prev s r h
      simp only [mtch] at h
      split at h
      · simp only [List.mem_singleton] at h; subst h; rfl
      · simp at h

theorem pymatch_consumes {re : Regex} {prev : Option Char} {s : List Char} {r : MRes}
    (h : pymatch re prev s = some r) : s = r.consumed ++ r.rest := by
  have : r ∈ mtch re prev s := by
    unfold pymatch at h
    exact List.mem_of_mem_head? h
  exact mtch_consumes re prev s r this

theorem runLen_le_length (cs : List Char) : ∀ s : List Char, runLen cs s ≤ s.length := by
  intro s
  induction s with
  | nil => simp [runLen]
  | cons c t ih =>
      simp only [runLen]
      split
      · simpa using ih
      · simp

theorem take_all_of_le_runLen (cs : List Char) :
    ∀ (s : List Char) (k : Nat), k ≤ runLen cs s →
      (s.take k).all (fun c => cs.contains c) = true := by
  intro s
  induction s with
  | nil => intro k _; simp
  | cons c t ih =>
      intro k hk
      cases k with
      | zero => simp
      | succ k2 =>
          simp only [runLen] at hk
          split at hk
          · next hc =>
              simp only [List.take_succ_cons, List.all_cons, hc, Bool.true_and]
              exact ih k2 (Nat.le_of_succ_le_succ hk)
          · omega

theorem runLen_append_of_all (cs : List Char) :
    ∀ (c t : List Char), c.all (fun x => cs.contains x) = true →
      c.length ≤ runLen cs (c ++ t) := by
  intro c
  induction c with
  | nil => intro t _; simp
  | cons x c2 ih =>
      intro t hall
      simp only [List.all_cons, Bool.and_eq_true] at hall
      simp only [List.cons_append, runLen, hall.1, if_true, List.length_cons]
      exact Nat.succ_le_succ (ih t hall.2)

/-! ### Syntactic analyses of patterns, with soundness -/

/-- Every success of the pattern consumes at least one character. -/
def neverEmpty : Regex → Bool
  | .eps => false
  | .cls _ => true
  | .seq a b => neverEmpty a || neverEmpty b
  | .alt a b => neverEmpty a && neverEmpty b
  | .starCls _ => false
  | .plusCls _ => true
  | .group _ a => neverEmpty a
  | .nla _ => false
  | .wb => false

theorem neverEmpty_sound : ∀ (re : Regex), neverEmpty re = true →
    ∀ (prev : Option Char) (s : List Char) (r : MRes),
      r ∈ mtch re prev s → r.consumed ≠ [] := by
  intro re
  induction re with
  | eps => intro h; simp [neverEmpty] at h
  | cls cs =>
      intro _ prev s r hr
      cases s with
      | nil => simp [mtch] at hr
      | cons c t =>
          simp only [mtch] at hr
          split at hr
          · simp only [List.mem_singleton] at hr; subst hr; simp
          · simp at hr
  | seq a b iha ihb =>
      intro h prev s r hr
      simp only [neverEmpty, Bool.or_eq_true] at h
      simp only [mtch, List.mem_flatMap, List.mem_map] at hr
      obtain ⟨r1, h1, r2, h2, hcomb⟩ := hr
      subst hcomb
      simp only [ne_eq, List.append_eq_nil, not_and]
      intro h1nil
      rcases h with h | h
      · exact absurd h1nil (iha h prev s r1 h1)
      · exact ihb h r1.newPrev r1.rest r2 h2
  | alt a b iha ihb =>
      intro h prev s r hr
      simp only [neverEmpty, Bool.and_eq_true] at h
      simp only [mtch, List.mem_append] at hr
      rcases hr with hr | hr
      · exact iha h.1 prev s r hr
      · exact ihb h.2 prev s r hr
  | starCls cs => intro h; simp [neverEmpty] at h
  | plusCls cs =>
      intro _ prev s r hr
      simp only [mtch, List.mem_map, List.mem_reverse, List.mem_range] at hr
      obtain ⟨k, hk, hrr⟩ := hr
      subst hrr
      simp only [ne_eq]
      intro habs
      have h1 : (s.take (k + 1)).length = 0 := by rw [habs]; rfl
      have h2 : k + 1 ≤ s.length :=
        le_trans (Nat.succ_le_of_lt hk) (runLen_le_length cs s)
      rw [List.length_take] at h1
      omega
  | group n a ih =>
      intro h prev s r hr
      simp only [mtch, List.mem_map] at hr
      obtain ⟨r1, h1, hrr⟩ := hr
      subst hrr
      exact ih h prev s r1 h1
  | nla cs => intro h; simp [neverEmpty] at h
  | wb => intro h; simp [neverEmpty] at h

/-- Whenever a success of the pattern consumes at least one character, the
first consumed character is a word character. -/
def firstWord : Regex → Bool
  | .eps => true
  | .cls cs => cs.all isWordCh
  | .seq a b => firstWord a && (neverEmpty a || firstWord b)
  | .alt a b => firstWord a && firstWord b
  | .starCls cs => cs.all isWordCh
  | .plusCls cs => cs.all isWordCh
  | .group _ a => firstWord a
  | .nla _ => true
  | .wb => true

theorem firstWord_sound : ∀ (re : Regex), firstWord re = true →
    ∀ (prev : Option Char) (s : List Char) (r : MRes) (c : Char) (cr : List Char),
      r ∈ mtch re prev s → r.consumed = c :: cr → isWordCh c = true := by
  intro re
  induction re with
  | eps =>
      intro _ prev s r c cr hr hc
      simp only [mtch, List.mem_singleton] at hr
      subst hr; simp at hc
  | cls cs =>
      intro h prev s r c cr hr hc
      cases s with
      | nil => simp [mtch] at hr
      | cons x t =>
          simp only [mtch] at hr
          split at hr
          · next hx =>
              simp only [List.mem_singleton] at hr
              subst hr
              simp only [List.cons.injEq] at hc
              rw [← hc.1]
              exact List.all_eq_true.1 h x (List.mem_of_elem_eq_true hx)
          · simp at hr
  | seq a b iha ihb =>
      intro h prev s r c cr hr hc
      simp only [firstWord, Bool.and_eq_true, Bool.or_eq_true] at h
      simp only [mtch, List.mem_flatMap, List.mem_map] at hr
      obtain ⟨r1, h1, r2, h2, hcomb⟩ := hr
      subst hcomb
      simp only [] at hc
      cases hcase : r1.consumed with
      | nil =>
          rw [hcase, List.nil_append] at hc
          rcases h.2 with hne | hfw
          · exact absurd hcase (neverEmpty_sound a hne prev s r1 h1)
          · exact ihb hfw r1.newPrev r1.rest r2 c cr h2 hc
      | cons x u =>
          rw [hcase, List.cons_append] at hc
          obtain ⟨hxc, -⟩ := List.cons.injEq .. ▸ hc
          subst hxc
          exact iha h.1 prev s r1 x u h1 hcase
  | alt a b iha ihb =>
      intro h prev s r c cr hr hc
      simp only [firstWord, Bool.and_eq_true] at h
      simp only [mtch, List.mem_append] at hr
      rcases hr with hr | hr
      · exact iha h.1 prev s r c cr hr hc
      · exact ihb h.2 prev s r c cr hr hc
  | starCls cs =>
      intro h prev s r c cr hr hc
      simp only [mtch, List.mem_map, List.mem_reverse, List.mem_range] at hr
      obtain ⟨k, hk, hrr⟩ := hr
      subst hrr
      simp only [] at hc
      have hall := take_all_of_le_runLen cs s k (Nat.lt_succ_iff.1 hk)
      rw [hc] at hall
      simp only [List.all_cons, Bool.and_eq_true] at hall
      exact List.all_eq_true.1 h c (List.mem_of_elem_eq_true hall.1)
  | plusCls cs =>
      intro h prev s r c cr hr hc
      simp only [mtch, List.mem_map, List.mem_reverse, List.mem_range] at hr
      obtain ⟨k, hk, hrr⟩ := hr
      subst hrr
      simp only [] at hc
      have hall := take_all_of_le_runLen cs s (k + 1) (Nat.succ_le_of_lt hk)
      rw [hc] at hall
      simp only [List.all_cons, Bool.and_eq_true] at hall
      exact List.all_eq_true.1 h c (List.mem_of_elem_eq_true hall.1)
  | group n a ih =>
      intro h prev s r c cr hr hc
      simp only [mtch, List.mem_map] at hr
      obtain ⟨r1, h1, hrr⟩ := hr
      subst hrr
      exact ih h prev s r1 c cr h1 hc
  | nla cs =>
      intro _ prev s r c cr hr hc
      cases s with
      | nil =>
          simp only [mtch, List.mem_singleton] at hr
          subst hr; simp at hc
      | cons x t =>
          simp only [mtch] at hr
          split at hr
          · simp at hr
          · simp only [List.mem_singleton] at hr; subst hr; simp at hc
  | wb =>
      intro _ prev s r c cr hr hc
      simp only [mtch] at hr
      split at hr
      · simp only [List.mem_singleton] at hr; subst hr; simp at hc
      · simp at hr

/-- The pattern contains no word-boundary assertion. -/
def wbFree : Regex → Bool
  | .eps => true
  | .cls _ => true
  | .seq a b => wbFree a && wbFree b
  | .alt a b => wbFree a && wbFree b
  | .starCls _ => true
  | .plusCls _ => true
  | .group _ a => wbFree a
  | .nla _ => true
  | .wb => false

/-- Replacing the suffix `t1` by `t2` can only make single-character negative
lookaheads easier: either `t2` is empty, or the two suffixes agree on their
first character. -/
def FirstCompat (t1 t2 : List Char) : Prop := t2 = [] ∨ t1.head? = t2.head?

/-- Context weakening for word-boundary-free patterns: a success that consumes
exactly `c` in front of suffix `t1` transfers to any preceding context and to
any `FirstCompat` suffix `t2`.  This is what makes the source's `assert match`
(re-matching a saved match text in isolation) succeed. -/
theorem mtch_transfer : ∀ (re : Regex), wbFree re = true →
    ∀ (prev1 prev2 : Option Char) (c t1 t2 : List Char) (p : Option Char)
      (k : List (String × List Char)),
      FirstCompat t1 t2 →
      (⟨c, p, t1, k⟩ : MRes) ∈ mtch re prev1 (c ++ t1) →
      ∃ p2 k2, (⟨c, p2, t2, k2⟩ : MRes) ∈ mtch re prev2 (c ++ t2) := by
  intro re
  induction re with
  | eps =>
      intro _ prev1 prev2 c t1 t2 p k _ h
      simp only [mtch, List.mem_singleton, MRes.mk.injEq] at h
      obtain ⟨hc, -, -, -⟩ := h
      subst hc
      exact ⟨prev2, [], by simp [mtch]⟩
  | cls cs =>
      intro _ prev1 prev2 c t1 t2 p k _ h
      cases c with
      | nil =>
          cases t1 with
          | nil => simp [mtch] at h
          | cons x xs =>
              simp only [List.nil_append, mtch] at h
              split at h
              · simp only [List.mem_singleton, MRes.mk.injEq] at h
                exact absurd h.1 (by simp)
              · simp at h
      | cons a c2 =>
          simp only [List.cons_append, mtch] at h
          split at h
          · next ha =>
              simp only [List.mem_singleton, MRes.mk.injEq] at h
              obtain ⟨hc, -, -, -⟩ := h
              have hc2 : c2 = [] := by
                have := congrArg List.length hc
                simp at this
                simpa using this
              subst hc2
              refine ⟨some a, [], ?_⟩
              simp [mtch, ha]
              exact List.mem_of_elem_eq_true ha
          · simp at h
  | seq a b iha ihb =>
      intro hwf prev1 prev2 c t1 t2 p k hfc h
      simp only [wbFree, Bool.and_eq_true] at hwf
      simp only [mtch, List.mem_flatMap, List.mem_map] at h
      obtain ⟨r1, h1, r2, h2, hcomb⟩ := h
      obtain ⟨hc, hp, ht1, hk⟩ := MRes.mk.injEq .. ▸ hcomb
      have hsplit : r1.rest = r2.consumed ++ t1 := by
        rw [mtch_consumes b r1.newPrev r1.rest r2 h2, ht1]
      have h1' : (⟨r1.consumed, r1.newPrev, r2.consumed ++ t1, r1.caps⟩ : MRes) ∈
          mtch a prev1 (r1.consumed ++ (r2.consumed ++ t1)) := by
        have heta : r1 = ⟨r1.consumed, r1.newPrev, r2.consumed ++ t1, r1.caps⟩ := by
          cases r1; simp_all
        have hin : c ++ t1 = r1.consumed ++ (r2.consumed ++ t1) := by
          rw [← hc, List.append_assoc]
        rw [← hin]
        exact heta ▸ h1
      have hfc' : FirstCompat (r2.consumed ++ t1) (r2.consumed ++ t2) := by
        cases hr2c : r2.consumed with
        | nil => simpa using hfc
        | cons d ds => exact Or.inr (by simp)
      obtain ⟨p2a, k2a, h2a⟩ :=
        iha hwf.1 prev1 prev2 r1.consumed (r2.consumed ++ t1) (r2.consumed ++ t2)
          r1.newPrev r1.caps hfc' h1'
      have h2' : (⟨r2.consumed, r2.newPrev, t1, r2.caps⟩ : MRes) ∈
          mtch b r1.newPrev (r2.consumed ++ t1) := by
        have heta : r2 = ⟨r2.consumed, r2.newPrev, t1, r2.caps⟩ := by
          cases r2; simp_all
        rw [← hsplit]
        exact heta ▸ h2
      obtain ⟨p2b, k2b, h2b⟩ :=
        ihb hwf.2 r1.newPrev p2a r2.consumed t1 t2 r2.newPrev r2.caps hfc h2'
      refine ⟨p2b, k2a ++ k2b, ?_⟩
      simp only [mtch, List.mem_flatMap, List.mem_map]
      refine ⟨⟨r1.consumed, p2a, r2.consumed ++ t2, k2a⟩, ?_, ⟨r2.consumed, p2b, t2, k2b⟩, h2b, ?_⟩
      · have hin : c ++ t2 = r1.consumed ++ (r2.consumed ++ t2) := by
          rw [← hc, List.append_assoc]
        rw [hin]
        exact h2a
      · simp [hc]
  | alt a b iha ihb =>
      intro hwf prev1 prev2 c t1 t2 p k hfc h
      simp only [wbFree, Bool.and_eq_true] at hwf
      simp only [mtch, List.mem_append] at h
      rcases h with h | h
      · obtain ⟨p2, k2, h2⟩ := iha hwf.1 prev1 prev2 c t1 t2 p k hfc h
        exact ⟨p2, k2, by simp [mtch, List.mem_append]; exact Or.inl h2⟩
      · obtain ⟨p2, k2, h2⟩ := ihb hwf.2 prev1 prev2 c t1 t2 p k hfc h
        exact ⟨p2, k2, by simp [mtch, List.mem_append]; exact Or.inr h2⟩
  | starCls cs =>
      intro _ prev1 prev2 c t1 t2 p k _ h
      simp only [mtch, List.mem_map, List.mem_reverse, List.mem_range] at h
      obtain ⟨kk, hkk, hr⟩ := h
      obtain ⟨hc, -, ht1, -⟩ := MRes.mk.injEq .. ▸ hr
      have hklen : kk = c.length := by
        have h1 : (c ++ t1).length - kk = t1.length := by
          rw [← List.length_drop, ht1]
        have h2 : kk ≤ (c ++ t1).length :=
          le_trans (Nat.lt_succ_iff.1 hkk) (runLen_le_length cs (c ++ t1))
        simp [List.length_append] at h1 h2
        omega
      subst hklen
      have hall : c.all (fun x => cs.contains x) = true := by
        have := take_all_of_le_runLen cs (c ++ t1) c.length (Nat.lt_succ_iff.1 hkk)
        rwa [List.take_left] at this
      refine ⟨lastPrev prev2 c, [], ?_⟩
      simp only [mtch, List.mem_map, List.mem_reverse, List.mem_range]
      refine ⟨c.length, Nat.lt_succ_of_le (runLen_append_of_all cs c t2 hall), ?_⟩
      rw [List.take_left, List.drop_left]
  | plusCls cs =>
      intro _ prev1 prev2 c t1 t2 p k _ h
      simp only [mtch, List.mem_map, List.mem_reverse, List.mem_range] at h
      obtain ⟨kk, hkk, hr⟩ := h
      obtain ⟨hc, -, ht1, -⟩ := MRes.mk.injEq .. ▸ hr
      have hklen : kk + 1 = c.length := by
        have h1 : (c ++ t1).length - (kk + 1) = t1.length := by
          rw [← List.length_drop, ht1]
        have h2 : kk + 1 ≤ (c ++ t1).length :=
          le_trans (Nat.succ_le_of_lt hkk) (runLen_le_length cs (c ++ t1))
        simp [List.length_append] at h1 h2
        omega
      have hall : c.all (fun x => cs.contains x) = true := by
        have := take_all_of_le_runLen cs (c ++ t1) (kk + 1) (Nat.succ_le_of_lt hkk)
        rw [hklen, List.take_left] at this
        exact this
      refine ⟨lastPrev prev2 c, [], ?_⟩
      simp only [mtch, List.mem_map, List.mem_reverse, List.mem_range]
      refine ⟨kk, ?_, ?_⟩
      · have := runLen_append_of_all cs c t2 hall
        omega
      · rw [hklen, List.take_left, List.drop_left]
  | group n a ih =>
      intro hwf prev1 prev2 c t1 t2 p k hfc h
      simp only [mtch, List.mem_map] at h
      obtain ⟨r1, h1, hr⟩ := h
      obtain ⟨hc, hp, ht1, hk⟩ := MRes.mk.injEq .. ▸ hr
      have h1' : (⟨c, r1.newPrev, t1, r1.caps⟩ : MRes) ∈ mtch a prev1 (c ++ t1) := by
        have : r1 = ⟨c, r1.newPrev, t1, r1.caps⟩ := by
          cases r1; simp_all
        rwa [this] at h1
      obtain ⟨p2, k2, h2⟩ := ih hwf prev1 prev2 c t1 t2 r1.newPrev r1.caps hfc h1'
      refine ⟨p2, (n, c) :: k2, ?_⟩
      simp only [mtch, List.mem_map]
      exact ⟨⟨c, p2, t2, k2⟩, h2, rfl⟩
  | nla cs =>
      intro _ prev1 prev2 c t1 t2 p k hfc h
      have hcnil : c = [] := by
        cases hs : c ++ t1 with
        | nil => rcases List.append_eq_nil.1 hs with ⟨h1, -⟩; exact h1
        | cons x xs =>
            rw [hs] at h
            simp only [mtch] at h
            split at h
            · simp at h
            · simp only [List.mem_singleton, MRes.mk.injEq] at h
              exact h.1
      subst hcnil
      simp only [List.nil_append] at h ⊢
      cases t1 with
      | nil =>
          simp only [mtch, List.mem_singleton, MRes.mk.injEq] at h
          have ht2 : t2 = [] := by
            rcases hfc with h2 | h2
            · exact h2
            · cases t2 with
              | nil => rfl
              | cons y ys => simp at h2
          subst ht2
          exact ⟨prev2, [], by simp [mtch]⟩
      | cons x xs =>
          simp only [mtch] at h
          split at h
          · simp at h
          · next hx =>
              cases t2 with
              | nil => exact ⟨prev2, [], by simp [mtch]⟩
              | cons y ys =>
                  have hxy : y = x := by
                    rcases hfc with h2 | h2
                    · simp at h2
                    · simp only [List.head?] at h2
                      exact (Option.some.injEq .. ▸ h2).symm
                  subst hxy
                  refine ⟨prev2, [], ?_⟩
                  simp only [mtch, hx, if_false]
                  simp
  | wb => intro hwf; simp [wbFree] at hwf

/-! ### Decomposing the catalog patterns at their leading word boundary -/

theorem mem_mtch_seq {a b : Regex} {prev : Option Char} {s : List Char} {r : MRes} :
    r ∈ mtch (Regex.seq a b) prev s ↔
      ∃ r1 ∈ mtch a prev s, ∃ r2 ∈ mtch b r1.newPrev r1.rest,
        r = ⟨r1.consumed ++ r2.consumed, r2.newPrev, r2.rest, r1.caps ++ r2.caps⟩ := by
  simp only [mtch, List.mem_flatMap, List.mem_map]
  constructor
  · rintro ⟨r1, h1, r2, h2, hr⟩
    exact ⟨r1, h1, r2, h2, hr.symm⟩
  · rintro ⟨r1, h1, r2, h2, hr⟩
    exact ⟨r1, h1, r2, h2, hr.symm⟩

theorem mem_mtch_wb_seq {b : Regex} {prev : Option Char} {s : List Char} {r : MRes} :
    r ∈ mtch (Regex.seq Regex.wb b) prev s ↔
      ((isWordOpt prev != isWordHead s) = true ∧ r ∈ mtch b prev s) := by
  constructor
  · intro h
    rcases mem_mtch_seq.1 h with ⟨r1, h1, r2, h2, hr⟩
    simp only [mtch] at h1
    split at h1
    · next hb =>
        simp only [List.mem_singleton] at h1
        subst h1
        simp only [] at h2 hr
        refine ⟨hb, ?_⟩
        subst hr
        simpa using h2
    · simp at h1
  · rintro ⟨hb, h⟩
    refine mem_mtch_seq.2 ⟨⟨[], prev, s, []⟩, ?_, r, by simpa using h, by simp⟩
    simp [mtch, hb]

theorem mem_mtch_seqwb_seq {b c : Regex} {prev : Option Char} {s : List Char} {r : MRes} :
    r ∈ mtch (Regex.seq (Regex.seq Regex.wb b) c) prev s ↔
      ((isWordOpt prev != isWordHead s) = true ∧ r ∈ mtch (Regex.seq b c) prev s) := by
  constructor
  · intro h
    rcases mem_mtch_seq.1 h with ⟨r1, h1, r2, h2, hr⟩
    rcases mem_mtch_wb_seq.1 h1 with ⟨hb, h1b⟩
    exact ⟨hb, mem_mtch_seq.2 ⟨r1, h1b, r2, h2, hr⟩⟩
  · rintro ⟨hb, h⟩
    rcases mem_mtch_seq.1 h with ⟨r1, h1, r2, h2, hr⟩
    exact mem_mtch_seq.2 ⟨r1, mem_mtch_wb_seq.2 ⟨hb, h1⟩, r2, h2, hr⟩

/-- Strip the leading `\b` of a catalog pattern. -/
def wbBody : Regex → Regex
  | .seq .wb b => b
  | .seq (.seq .wb b) c => .seq b c
  | re => re

section
set_option maxHeartbeats 2000000
set_option maxRecDepth 40000

/-- Every catalog pattern starts with `\b`, and the remaining body is free of
word boundaries, never matches empty, and always consumes a word character
first. -/
theorem catalog_decomp : ∀ re ∈ _regexes,
    (wbFree (wbBody re) = true ∧ neverEmpty (wbBody re) = true ∧
     firstWord (wbBody re) = true) ∧
    ∀ (prev : Option Char) (s : List Char) (r : MRes),
      r ∈ mtch re prev s ↔
        ((isWordOpt prev != isWordHead s) = true ∧ r ∈ mtch (wbBody re) prev s) := by
  intro re hre
  simp only [_regexes, List.mem_cons, List.not_mem_nil, or_false] at hre
  rcases hre with rfl|rfl|rfl|rfl|rfl|rfl|rfl|rfl|rfl|rfl|rfl|rfl|rfl|rfl|rfl <;>
    exact ⟨by decide, fun prev s r => by
      first
        | exact mem_mtch_wb_seq
        | exact mem_mtch_seqwb_seq⟩

end

/-! ### Scanner soundness -/

theorem finditerAux_sound (re : Regex) (full : List Char) :
    ∀ (fuel : Nat) (prev : Option Char) (pos : Nat) (m : Nat × Nat × String),
      m ∈ finditerAux re fuel prev (full.drop pos) pos →
      ∃ (prev2 : Option Char) (r : MRes),
        pymatch re prev2 (full.drop m.1) = some r ∧
        m.2.2 = String.mk r.consumed ∧ m.2.1 = m.1 + r.consumed.length := by
  intro fuel
  induction fuel with
  | zero => intro prev pos m h; simp [finditerAux] at h
  | succ fuel ih =>
      intro prev pos m h
      simp only [finditerAux] at h
      split at h
      · next r hr =>
          split at h
          · next hemp =>
              rcases List.mem_cons.1 h with hm | hm
              · subst hm
                exact ⟨prev, r, hr, by simp [hemp], by simp [hemp]⟩
              · split at hm
                · simp at hm
                · next c t hs =>
                    have ht : t = full.drop (pos + 1) := by
                      have : List.drop 1 (full.drop pos) = full.drop (pos + 1) := by
                        rw [List.drop_drop]
                      rw [hs] at this
                      simpa using this
                    exact ih (some c) (pos + 1) m (ht ▸ hm)
          · next hemp =>
              rcases List.mem_cons.1 h with hm | hm
              · subst hm
                exact ⟨prev, r, hr, rfl, rfl⟩
              · have hcons := pymatch_consumes hr
                have hrest : r.rest = full.drop (pos + r.consumed.length) := by
                  have h1 : List.drop r.consumed.length (full.drop pos) =
                      full.drop (pos + r.consumed.length) := by
                    rw [List.drop_drop, Nat.add_comm]
                  rw [hcons, List.drop_left] at h1
                  exact h1
                exact ih r.newPrev (pos + r.consumed.length) m (hrest ▸ hm)
      · split at h
        · simp at h
        · next c t hs =>
            have ht : t = full.drop (pos + 1) := by
              have : List.drop 1 (full.drop pos) = full.drop (pos + 1) := by
                rw [List.drop_drop]
              rw [hs] at this
              simpa using this
            exact ih (some c) (pos + 1) m (ht ▸ h)

theorem finditer_sound {re : Regex} {s : List Char} {m : Nat × Nat × String}
    (h : m ∈ finditer re s) :
    ∃ (prev2 : Option Char) (r : MRes),
      pymatch re prev2 (s.drop m.1) = some r ∧
      m.2.2 = String.mk r.consumed ∧ m.2.1 = m.1 + r.consumed.length := by
  have h0 : s.drop 0 = s := by simp
  exact finditerAux_sound re s (s.length + 1) none 0 m (by rwa [h0])

theorem scanAll_sound {s : List Char} {pc : _Candidate} (h : pc ∈ scanAll s) :
    pc.regex ∈ _regexes ∧
    ∃ (prev2 : Option Char) (r : MRes),
      pymatch pc.regex prev2 (s.drop pc.start) = some r ∧
      pc.match_text = String.mk r.consumed ∧ pc.end_ = pc.start + r.consumed.length := by
  simp only [scanAll, List.mem_flatMap, List.mem_map] at h
  obtain ⟨re, hre, m, hm, hpc⟩ := h
  subst hpc
  exact ⟨hre, finditer_sound hm⟩

/-! ### The re-match of a saved match text always succeeds -/

theorem rematch_isSome {re : Regex} (hre : re ∈ _regexes)
    {prev2 : Option Char} {s2 : List Char} {r : MRes}
    (h : pymatch re prev2 s2 = some r) :
    (pymatch re none (String.mk r.consumed).toList).isSome = true := by
  obtain ⟨⟨hwf, hne, hfw⟩, hiff⟩ := catalog_decomp re hre
  have hmem : r ∈ mtch re prev2 s2 := by
    unfold pymatch at h
    exact List.mem_of_mem_head? h
  obtain ⟨hb, hbody⟩ := (hiff prev2 s2 r).1 hmem
  have hcons := mtch_consumes re prev2 s2 r hmem
  have hbody' : (⟨r.consumed, r.newPrev, r.rest, r.caps⟩ : MRes) ∈
      mtch (wbBody re) prev2 (r.consumed ++ r.rest) := by
    rw [← hcons]
    exact hbody
  obtain ⟨p2, k2, htr⟩ :=
    mtch_transfer (wbBody re) hwf prev2 none r.consumed r.rest [] r.newPrev r.caps
      (Or.inl rfl) hbody'
  rw [List.append_nil] at htr
  have hcne : r.consumed ≠ [] := neverEmpty_sound (wbBody re) hne prev2 s2 r hbody
  have hhead : isWordHead r.consumed = true := by
    cases hcc : r.consumed with
    | nil => exact absurd hcc hcne
    | cons c cr =>
        simp only [isWordHead]
        exact firstWord_sound (wbBody re) hfw prev2 s2 r c cr hbody hcc
  have hb2 : (isWordOpt none != isWordHead r.consumed) = true := by
    simp only [isWordOpt, hhead]
    rfl
  have hmem2 : (⟨r.consumed, p2, [], k2⟩ : MRes) ∈ mtch re none r.consumed :=
    (hiff none r.consumed ⟨r.consumed, p2, [], k2⟩).2 ⟨hb2, htr⟩
  have hlist : (String.mk r.consumed).toList = r.consumed := rfl
  rw [hlist]
  unfold pymatch
  cases hm : mtch re none r.consumed with
  | nil => rw [hm] at hmem2; simp at hmem2
  | cons x xs => simp

/-! ### Membership facts about sorting and overlap removal -/

theorem insertDesc_perm (x : _Candidate) : ∀ l : List _Candidate,
    (insertDesc x l).Perm (x :: l) := by
  intro l
  induction l with
  | nil => simp [insertDesc]
  | cons y t ih =>
      simp only [insertDesc]
      split
      · exact ((ih.cons y).trans (List.Perm.swap x y t)).symm.symm
      · exact List.Perm.refl _

theorem foldl_insertDesc_perm : ∀ (l acc : List _Candidate),
    (l.foldl (fun a x => insertDesc x a) acc).Perm (acc ++ l) := by
  intro l
  induction l with
  | nil => intro acc; simp
  | cons x t ih =>
      intro acc
      simp only [List.foldl_cons]
      refine (ih (insertDesc x acc)).trans ?_
      have h1 : (insertDesc x acc ++ t).Perm ((x :: acc) ++ t) :=
        (insertDesc_perm x acc).append_right t
      refine h1.trans ?_
      simp only [List.cons_append]
      exact List.perm_middle.symm

theorem sortLenDesc_perm (l : List _Candidate) : (sortLenDesc l).Perm l := by
  simpa using foldl_insertDesc_perm l []

theorem groupScan_fst_mem : ∀ (l : List _Candidate) (s e : Nat) (w : _Candidate),
    (groupScan s e w l).1 ∈ w :: l := by
  intro l
  induction l with
  | nil => intro s e w; simp [groupScan]
  | cons cj t ih =>
      intro s e w
      simp only [groupScan]
      split
      · split
        · rcases List.mem_cons.1 (ih cj.start cj.end_ cj) with h | h
          · simp [h]
          · simp [List.mem_cons.2 (Or.inr (List.mem_cons.2 (Or.inr h)))]
        · rcases List.mem_cons.1 (ih s e w) with h | h
          · simp [h]
          · simp [List.mem_cons.2 (Or.inr (List.mem_cons.2 (Or.inr h)))]
      · rcases List.mem_cons.1 (ih s e w) with h | h
        · simp [h]
        · simp [List.mem_cons.2 (Or.inr (List.mem_cons.2 (Or.inr h)))]

theorem filterFlags_sublist : ∀ (l : List _Candidate) (fl : List Bool),
    (filterFlags l fl).Sublist l := by
  intro l fl
  induction fl generalizing l with
  | nil => simp [filterFlags]
  | cons f ft ih =>
      cases l with
      | nil => simp [filterFlags]
      | cons c t =>
          cases f with
          | true =>
              simp only [filterFlags]
              exact (ih t).cons c
          | false =>
              simp only [filterFlags]
              exact (ih t).cons₂ c

theorem remove_overlap_go_subset : ∀ (fuel : Nat) (l : List _Candidate) (x : _Candidate),
    x ∈ _remove_overlap_go fuel l → x ∈ l := by
  intro fuel
  induction fuel with
  | zero => intro l x h; simp [_remove_overlap_go] at h
  | succ fuel ih =>
      intro l x h
      cases l with
      | nil => simp [_remove_overlap_go] at h
      | cons c0 rest =>
          simp only [_remove_overlap_go] at h
          rcases List.mem_cons.1 h with h | h
          · exact h ▸ groupScan_fst_mem rest c0.start c0.end_ c0
          · have := ih _ x h
            exact List.mem_cons.2 (Or.inr ((filterFlags_sublist rest _).mem this))

theorem remove_overlap_subset {l : List _Candidate} {x : _Candidate}
    (h : x ∈ _remove_overlap l) : x ∈ l :=
  remove_overlap_go_subset l.length l x h

/-! ### The assertion in `run` never fires -/

theorem normalizeCandidate_isSome {s : List Char} {pc : _Candidate}
    (h : pc ∈ scanAll s) : (normalizeCandidate pc).isSome = true := by
  obtain ⟨hre, prev2, r, hmatch, htext, -⟩ := scanAll_sound h
  have := rematch_isSome hre hmatch
  rw [← htext] at this
  unfold normalizeCandidate
  cases hm : pymatch pc.regex none pc.match_text.toList with
  | none => rw [hm] at this; simp at this
  | some r2 => simp

theorem normalizeAll_isSome : ∀ (l : List _Candidate),
    (∀ pc ∈ l, (normalizeCandidate pc).isSome = true) →
    (normalizeAll l).isSome = true := by
  intro l
  induction l with
  | nil => intro _; simp [normalizeAll]
  | cons pc t ih =>
      intro h
      simp only [normalizeAll]
      have h1 := h pc (List.mem_cons_self pc t)
      have h2 := ih (fun x hx => h x (List.mem_cons.2 (Or.inr hx)))
      cases hm1 : normalizeCandidate pc with
      | none => rw [hm1] at h1; simp at h1
      | some r =>
          cases hm2 : normalizeAll t with
          | none => rw [hm2] at h2; simp at h2
          | some rs => simp

theorem run_isSome (sentence : String) : (run sentence).isSome = true := by
  unfold run
  have hsub : ∀ pc ∈ _remove_overlap (sortLenDesc (scanAll (_clean_sentence sentence.toList))),
      (normalizeCandidate pc).isSome = true := by
    intro pc hpc
    have h1 : pc ∈ sortLenDesc (scanAll (_clean_sentence sentence.toList)) :=
      remove_overlap_subset hpc
    have h2 : pc ∈ scanAll (_clean_sentence sentence.toList) :=
      (sortLenDesc_perm _).mem_iff.1 h1
    exact normalizeCandidate_isSome h2
  have := normalizeAll_isSome _ hsub
  cases hm : normalizeAll (_remove_overlap (sortLenDesc (scanAll (_clean_sentence sentence.toList)))) with
  | none => rw [hm] at this; simp at this
  | some results =>
      have hm2 : normalizeAll (_remove_overlap (sortLenDesc (scanAll
          (_clean_sentence sentence.data)))) = some results := hm
      simp [hm2]

/-! ### Non-overlap of the resolved candidates -/

/-- Descending-length order between candidates. -/
def lenGe (a b : _Candidate) : Prop := clen b ≤ clen a

/-- Non-overlap of two candidate spans (touching allowed). -/
def candNovl (a b : _Candidate) : Prop := a.end_ ≤ b.start ∨ b.end_ ≤ a.start

theorem has_overlap_eq_false_iff {a1 b1 a2 b2 : Nat} :
    _has_overlap a1 b1 a2 b2 = false ↔ (b2 ≤ a1 ∨ b1 ≤ a2) := by
  unfold _has_overlap
  constructor
  · intro h
    by_cases h1 : b2 ≤ a1
    · exact Or.inl h1
    · by_cases h2 : a2 ≥ b1
      · exact Or.inr h2
      · rw [if_neg h1, if_neg h2] at h
        simp at h
  · intro h
    by_cases h1 : b2 ≤ a1
    · rw [if_pos h1]
    · rw [if_neg h1]
      by_cases h2 : a2 ≥ b1
      · rw [if_pos h2]
      · exfalso
        rcases h with h | h
        · exact h1 h
        · exact h2 h

theorem insertDesc_sorted {x : _Candidate} : ∀ {l : List _Candidate},
    l.Pairwise lenGe → (insertDesc x l).Pairwise lenGe := by
  intro l
  induction l with
  | nil => intro _; simp [insertDesc, List.pairwise_singleton]
  | cons y t ih =>
      intro hp
      rw [List.pairwise_cons] at hp
      simp only [insertDesc]
      split
      · next hxy =>
          rw [List.pairwise_cons]
          constructor
          · intro d hd
            have hd2 := (insertDesc_perm x t).mem_iff.1 hd
            rcases List.mem_cons.1 hd2 with h | h
            · subst h; exact hxy
            · exact hp.1 d h
          · exact ih hp.2
      · next hxy =>
          push_neg at hxy
          rw [List.pairwise_cons]
          constructor
          · intro d hd
            rcases List.mem_cons.1 hd with h | h
            · subst h; exact le_of_lt hxy
            · exact le_trans (hp.1 d h) (le_of_lt hxy)
          · rw [List.pairwise_cons]
            exact ⟨hp.1, hp.2⟩

theorem sortLenDesc_sorted (l : List _Candidate) : (sortLenDesc l).Pairwise lenGe := by
  have : ∀ (m acc : List _Candidate), acc.Pairwise lenGe →
      (m.foldl (fun a x => insertDesc x a) acc).Pairwise lenGe := by
    intro m
    induction m with
    | nil => intro acc h; exact h
    | cons x t ih =>
        intro acc h
        simp only [List.foldl_cons]
        exact ih _ (insertDesc_sorted h)
  exact this l [] (by simp)

theorem groupScan_no_update {s e : Nat} {w : _Candidate} : ∀ {l : List _Candidate},
    (∀ d ∈ l, clen d ≤ e - s) →
    groupScan s e w l = (w, l.map (fun d => _has_overlap s e d.start d.end_)) := by
  intro l
  induction l with
  | nil => intro _; simp [groupScan]
  | cons cj t ih =>
      intro hb
      have hcj : clen cj ≤ e - s := hb cj (List.mem_cons_self cj t)
      have ht : ∀ d ∈ t, clen d ≤ e - s := fun d hd => hb d (List.mem_cons.2 (Or.inr hd))
      simp only [groupScan]
      split
      · next hov =>
          have hnotgt : ¬ (cj.end_ - cj.start > e - s) := by
            simp only [clen] at hcj
            omega
          rw [if_neg hnotgt, ih ht]
          simp [hov]
      · next hov =>
          rw [ih ht]
          simp only [List.map_cons]
          have : _has_overlap s e cj.start cj.end_ = false := by
            cases hx : _has_overlap s e cj.start cj.end_
            · rfl
            · exact absurd hx hov
          rw [this]

theorem filterFlags_map (f : _Candidate → Bool) : ∀ (l : List _Candidate),
    filterFlags l (l.map f) = l.filter (fun d => !f d) := by
  intro l
  induction l with
  | nil => simp [filterFlags]
  | cons c t ih =>
      simp only [List.map_cons]
      cases hf : f c with
      | true => simp [filterFlags, List.filter_cons, hf, ih]
      | false => simp [filterFlags, List.filter_cons, hf, ih]

theorem remove_overlap_go_pairwise : ∀ (fuel : Nat) (l : List _Candidate),
    l.length ≤ fuel → l.Pairwise lenGe →
    (_remove_overlap_go fuel l).Pairwise candNovl := by
  intro fuel
  induction fuel with
  | zero => intro l _ _; simp [_remove_overlap_go]
  | succ fuel ih =>
      intro l hlen hsort
      cases l with
      | nil => simp [_remove_overlap_go]
      | cons c0 rest =>
          rw [List.pairwise_cons] at hsort
          have hbound : ∀ d ∈ rest, clen d ≤ c0.end_ - c0.start := fun d hd => hsort.1 d hd
          simp only [_remove_overlap_go, groupScan_no_update hbound]
          rw [filterFlags_map]
          rw [List.pairwise_cons]
          constructor
          · intro r hr
            have hmem := remove_overlap_go_subset fuel _ r hr
            have := List.of_mem_filter hmem
            simp only [Bool.not_eq_true'] at this
            rcases has_overlap_eq_false_iff.1 this with h | h
            · exact Or.inr h
            · exact Or.inl h
          · refine ih _ ?_ (hsort.2.sublist (List.filter_sublist rest))
            have h1 := List.length_filter_le
              (fun d => !_has_overlap c0.start c0.end_ d.start d.end_) rest
            simp only [List.length_cons] at hlen
            omega

theorem remove_overlap_pairwise {l : List _Candidate} (hsort : l.Pairwise lenGe) :
    (_remove_overlap l).Pairwise candNovl :=
  remove_overlap_go_pairwise l.length l (le_refl _) hsort

/-! ### Records keep their candidate's text and span -/

theorem applyGmt_skeleton (acc : TimeValue) (kv : String × List Char) :
    (applyGmt acc kv).text = acc.text ∧ (applyGmt acc kv).start = acc.start ∧
    (applyGmt acc kv).end_ = acc.end_ := by
  unfold applyGmt
  split
  · exact ⟨rfl, rfl, rfl⟩
  · split
    · exact ⟨rfl, rfl, rfl⟩
    · split
      · exact ⟨rfl, rfl, rfl⟩
      · exact ⟨rfl, rfl, rfl⟩

theorem foldl_applyGmt_skeleton : ∀ (caps : List (String × List Char)) (acc : TimeValue),
    (caps.foldl applyGmt acc).text = acc.text ∧
    (caps.foldl applyGmt acc).start = acc.start ∧
    (caps.foldl applyGmt acc).end_ = acc.end_ := by
  intro caps
  induction caps with
  | nil => intro acc; exact ⟨rfl, rfl, rfl⟩
  | cons kv t ih =>
      intro acc
      simp only [List.foldl_cons]
      obtain ⟨h1, h2, h3⟩ := ih (applyGmt acc kv)
      obtain ⟨g1, g2, g3⟩ := applyGmt_skeleton acc kv
      exact ⟨h1.trans g1, h2.trans g2, h3.trans g3⟩

theorem applyGmtDelta_skeleton (acc : TimeValue) (v : List Char) :
    (applyGmtDelta acc v).text = acc.text ∧ (applyGmtDelta acc v).start = acc.start ∧
    (applyGmtDelta acc v).end_ = acc.end_ := by
  unfold applyGmtDelta
  split
  · exact ⟨rfl, rfl, rfl⟩
  · exact foldl_applyGmt_skeleton _ acc

theorem applyGroup_skeleton (acc : TimeValue) (kv : String × List Char) :
    (applyGroup acc kv).text = acc.text ∧ (applyGroup acc kv).start = acc.start ∧
    (applyGroup acc kv).end_ = acc.end_ := by
  unfold applyGroup
  split
  · exact ⟨rfl, rfl, rfl⟩
  · split
    · exact ⟨rfl, rfl, rfl⟩
    · split
      · exact ⟨rfl, rfl, rfl⟩
      · split
        · exact ⟨rfl, rfl, rfl⟩
        · split
          · exact ⟨rfl, rfl, rfl⟩
          · split
            · exact ⟨rfl, rfl, rfl⟩
            · split
              · exact applyGmtDelta_skeleton acc kv.2
              · exact ⟨rfl, rfl, rfl⟩

theorem foldl_applyGroup_skeleton : ∀ (caps : List (String × List Char)) (acc : TimeValue),
    (caps.foldl applyGroup acc).text = acc.text ∧
    (caps.foldl applyGroup acc).start = acc.start ∧
    (caps.foldl applyGroup acc).end_ = acc.end_ := by
  intro caps
  induction caps with
  | nil => intro acc; exact ⟨rfl, rfl, rfl⟩
  | cons kv t ih =>
      intro acc
      simp only [List.foldl_cons]
      obtain ⟨h1, h2, h3⟩ := ih (applyGroup acc kv)
      obtain ⟨g1, g2, g3⟩ := applyGroup_skeleton acc kv
      exact ⟨h1.trans g1, h2.trans g2, h3.trans g3⟩

theorem normalizeCandidate_spans {pc : _Candidate} {r : TimeValue}
    (h : normalizeCandidate pc = some r) :
    r.text = pc.match_text ∧ r.start = pc.start ∧ r.end_ = pc.end_ := by
  unfold normalizeCandidate at h
  split at h
  · simp at h
  · next m hm =>
      have := foldl_applyGroup_skeleton m.caps (initRecord pc)
      rw [Option.some.injEq] at h
      rw [← h] at *
      exact this

theorem normalizeAll_spans : ∀ (l : List _Candidate) (rs : List TimeValue),
    normalizeAll l = some rs →
    List.Forall₂ (fun (pc : _Candidate) (r : TimeValue) =>
      r.text = pc.match_text ∧ r.start = pc.start ∧ r.end_ = pc.end_) l rs := by
  intro l
  induction l with
  | nil =>
      intro rs h
      simp only [normalizeAll, Option.some.injEq] at h
      subst h
      exact List.Forall₂.nil
  | cons pc t ih =>
      intro rs h
      simp only [normalizeAll] at h
      cases hm1 : normalizeCandidate pc with
      | none => rw [hm1] at h; simp at h
      | some r =>
          cases hm2 : normalizeAll t with
          | none => rw [hm1, hm2] at h; simp at h
          | some rs2 =>
              rw [hm1, hm2, Option.some.injEq] at h
              subst h
              exact List.Forall₂.cons (normalizeCandidate_spans hm1) (ih rs2 hm2)

theorem forall2_mem_right {α β : Type} {Q : α → β → Prop} :
    ∀ {l : List α} {m : List β}, List.Forall₂ Q l m → ∀ y ∈ m, ∃ b ∈ l, Q b y := by
  intro l m hf
  induction hf with
  | nil => intro y hy; simp at hy
  | @cons a x l2 m2 hax hlm ih =>
      intro y hy
      rcases List.mem_cons.1 hy with h | h
      · exact ⟨a, List.mem_cons_self a l2, h ▸ hax⟩
      · obtain ⟨b, hb, hq⟩ := ih y h
        exact ⟨b, List.mem_cons.2 (Or.inr hb), hq⟩

/-- Transport a `Pairwise` relation along a `Forall₂` correspondence. -/
theorem pairwise_of_forall2 {α β : Type} {Q : α → β → Prop} {R : α → α → Prop}
    {S : β → β → Prop} (hQ : ∀ a b x y, Q a x → Q b y → R a b → S x y) :
    ∀ {l : List α} {m : List β}, List.Forall₂ Q l m → l.Pairwise R → m.Pairwise S := by
  intro l m hf
  induction hf with
  | nil => intro _; exact List.Pairwise.nil
  | @cons a x l2 m2 hax hlm ih =>
      intro hp
      rw [List.pairwise_cons] at hp ⊢
      constructor
      · intro y hy
        obtain ⟨b, hb, hq⟩ := forall2_mem_right hlm y hy
        exact hQ a b x y hax hq (hp.1 b hb)
      · exact ih hp.2

theorem insertAsc_perm (x : TimeValue) : ∀ l : List TimeValue,
    (insertAsc x l).Perm (x :: l) := by
  intro l
  induction l with
  | nil => simp [insertAsc]
  | cons y t ih =>
      simp only [insertAsc]
      split
      · exact (ih.cons y).trans (List.Perm.swap x y t)
      · exact List.Perm.refl _

theorem sortStartAsc_perm (l : List TimeValue) : (sortStartAsc l).Perm l := by
  have : ∀ (m acc : List TimeValue),
      (m.foldl (fun a x => insertAsc x a) acc).Perm (acc ++ m) := by
    intro m
    induction m with
    | nil => intro acc; simp
    | cons x t ih =>
        intro acc
        simp only [List.foldl_cons]
        refine (ih (insertAsc x acc)).trans ?_
        have h1 : (insertAsc x acc ++ t).Perm ((x :: acc) ++ t) :=
          (insertAsc_perm x acc).append_right t
        refine h1.trans ?_
        simp only [List.cons_append]
        exact List.perm_middle.symm
  simpa using this l []

/-! ### Fuel irrelevance and the one-pass peel equation of `_remove_overlap` -/

theorem remove_overlap_go_fuel : ∀ (f1 f2 : Nat) (l : List _Candidate),
    l.length ≤ f1 → l.length ≤ f2 →
    _remove_overlap_go f1 l = _remove_overlap_go f2 l := by
  intro f1
  induction f1 with
  | zero =>
      intro f2 l h1 _
      have : l = [] := List.length_eq_zero.1 (Nat.le_zero.1 h1)
      subst this
      cases f2 <;> simp [_remove_overlap_go]
  | succ f1 ih =>
      intro f2 l h1 h2
      cases l with
      | nil => cases f2 <;> simp [_remove_overlap_go]
      | cons c0 rest =>
          cases f2 with
          | zero => simp at h2
          | succ f2 =>
              simp only [_remove_overlap_go]
              have hlen := filterFlags_length_le rest (groupScan c0.start c0.end_ c0 rest).2
              simp only [List.length_cons] at h1 h2
              rw [ih f2 _ (by omega) (by omega)]

/-! ### Claim theorems -/

section
set_option maxRecDepth 100000
set_option maxHeartbeats 1000000

/-- C1: for every input string, the `[start, end)` spans of any two distinct
records returned by `run` are non-overlapping; touching spans (one record's
`end` equal to another's `start`) are allowed. -/
theorem C1_spans_nonoverlapping (sentence : String) (recs : List TimeValue)
    (h : run sentence = some recs) :
    recs.Pairwise (fun r1 r2 => r1.end_ ≤ r2.start ∨ r2.end_ ≤ r1.start) := by
  replace h : (match normalizeAll (_remove_overlap (sortLenDesc (scanAll
      (_clean_sentence sentence.data)))) with
    | none => none
    | some results => some (sortStartAsc results)) = some recs := h
  split at h
  · exact absurd h (by simp)
  · next results hnm =>
      rw [Option.some.injEq] at h
      subst h
      have hsorted := sortLenDesc_sorted (scanAll (_clean_sentence sentence.data))
      have hpruned := remove_overlap_pairwise hsorted
      have hspans := normalizeAll_spans _ _ hnm
      have hres : results.Pairwise
          (fun r1 r2 => r1.end_ ≤ r2.start ∨ r2.end_ ≤ r1.start) := by
        refine pairwise_of_forall2 ?_ hspans hpruned
        intro a b x y hax hby hr
        obtain ⟨-, hxs, hxe⟩ := hax
        obtain ⟨-, hys, hye⟩ := hby
        rw [hxs, hxe, hys, hye]
        exact hr
      have hsymm : ∀ {x y : TimeValue},
          (x.end_ ≤ y.start ∨ y.end_ ≤ x.start) →
          (y.end_ ≤ x.start ∨ x.end_ ≤ y.start) := fun h => h.symm
      exact ((sortStartAsc_perm results).pairwise_iff hsymm).2 hres

/-- C1 witness: on `"4 am and 6 pm"` the two returned records have
non-overlapping spans. -/
theorem C1_spans_nonoverlapping_witness :
    ([⟨"4 am", 0, 4, some 4, none, none, none, some "am", none, none, none, none⟩,
      ⟨"6 pm", 9, 13, some 6, none, none, none, some "pm", none, none, none, none⟩] :
      List TimeValue).Pairwise
      (fun r1 r2 => r1.end_ ≤ r2.start ∨ r2.end_ ≤ r1.start) :=
  C1_spans_nonoverlapping "4 am and 6 pm" _ (by decide)

/-- C2: on `"08:11:40.123456"` the full 15-character match wins over the
shorter overlapping candidates at the same start offset, and the single
returned record has hours 8, minutes 11, seconds 40 and fractional seconds
string `"123456"`. -/
theorem C2_longest_match_precedence :
    run "08:11:40.123456" =
      some [⟨"08:11:40.123456", 0, 15, some 8, some 11, some 40, some "123456",
             none, none, none, none, none⟩] := by
  decide

/-- Candidates for the C3 counterexample: a single transitive overlap chain
`cA ~ cB ~ cC` (the list is sorted by descending length). -/
def cA : _Candidate := ⟨0, 10, "aaaaaaaaaa", Regex.eps⟩

def cB : _Candidate := ⟨9, 12, "bbb", Regex.eps⟩

def cC : _Candidate := ⟨11, 14, "ccc", Regex.eps⟩

/-- C3 counterexample: on the length-sorted list `[cA, cB, cC]`, which forms a
single transitive overlap chain (`cB` overlaps both `cA` and `cC`, while `cC`
does not overlap `cA`), `_remove_overlap` emits TWO resolved matches, `cA` and
`cC`: the first pass removes only the candidates that directly overlap the
winner `cA`, not the full transitive chain, so `cC` survives.  This refutes
both "each outer pass removes every member of the winner's full transitive
overlap chain" and "at most one resolved match is emitted per transitive
overlap chain". -/
theorem C3_counterexample :
    clen cB ≤ clen cA ∧ clen cC ≤ clen cB ∧
    _has_overlap cA.start cA.end_ cB.start cB.end_ = true ∧
    _has_overlap cB.start cB.end_ cC.start cC.end_ = true ∧
    _has_overlap cA.start cA.end_ cC.start cC.end_ = false ∧
    _remove_overlap [cA, cB, cC] = [cA, cC] := by
  decide

/-- C3 amended: on the length-sorted candidate list, each outer pass of
`_remove_overlap` emits the first (longest) remaining candidate as winner and
removes exactly that winner and the candidates whose spans directly overlap
the winner's span; candidates connected to the winner only transitively
survive to later passes (so one transitive overlap chain can produce more than
one resolved match). -/
theorem C3_amended_direct_overlap_removal (cands : List _Candidate)
    (hsort : cands.Pairwise lenGe) :
    _remove_overlap cands =
      match cands with
      | [] => []
      | c :: rest =>
          c :: _remove_overlap (rest.filter
                 (fun d => !_has_overlap c.start c.end_ d.start d.end_)) := by
  cases cands with
  | nil => rfl
  | cons c0 rest =>
      rw [List.pairwise_cons] at hsort
      have hbound : ∀ d ∈ rest, clen d ≤ c0.end_ - c0.start := fun d hd => hsort.1 d hd
      show _remove_overlap_go (rest.length + 1) (c0 :: rest) = _
      simp only [_remove_overlap_go, groupScan_no_update hbound]
      rw [filterFlags_map]
      have hlen := List.length_filter_le
        (fun d => !_has_overlap c0.start c0.end_ d.start d.end_) rest
      rw [remove_overlap_go_fuel rest.length
        (rest.filter (fun d => !_has_overlap c0.start c0.end_ d.start d.end_)).length _
        hlen (le_refl _)]
      rfl

/-- C3 amended witness: the peel equation applied to the concrete sorted chain
`[cA, cB, cC]`. -/
theorem C3_amended_witness :
    _remove_overlap [cA, cB, cC] =
      cA :: _remove_overlap ([cB, cC].filter
              (fun d => !_has_overlap cA.start cA.end_ d.start d.end_)) :=
  C3_amended_direct_overlap_removal [cA, cB, cC]
    (by simp [List.pairwise_cons, lenGe, clen, cA, cB, cC])

/-- C4 counterexample: `run "234512"` returns a single record whose hours
field is 23 (the code reads `"234512"` as 23:45:12), not 24 as the claim
states. -/
theorem C4_counterexample :
    run "234512" =
      some [⟨"234512", 0, 6, some 23, some 45, some 12, none, none, none, none,
             none, none⟩] ∧
    (some 23 : Option Nat) ≠ some 24 := by
  constructor
  · decide
  · decide

/-- C4 amended: `run "234512"` interprets the input as the single
hour-minute-second expression 23:45:12, and the hour-minute no-colon pattern
produces no candidate at all on this input because its trailing-digit negative
lookahead forbids the minutes capture from being followed by another digit. -/
theorem C4_amended_hms_reading :
    run "234512" =
      some [⟨"234512", 0, 6, some 23, some 45, some 12, none, none, none, none,
             none, none⟩] ∧
    finditer _regex_h24m_no_colon (_clean_sentence "234512".toList) = [] := by
  constructor
  · decide
  · decide

/-- C5: the engine is NOT fully case-insensitive.  The uppercase zone marker
in `"093000 Z"` is normalized to `"UTC"`, but the lowercase variant
`"093000 z"` (recognized with the same span by the IGNORECASE timezone
pattern) yields the unnormalized timezone string `"z"`, because `run` compares
the captured text against the exact literal `'Z'`. -/
theorem C5_z_case_divergence :
    run "093000 Z" =
      some [⟨"093000 Z", 0, 8, some 9, some 30, some 0, none, none, some "UTC",
             none, none, none⟩] ∧
    run "093000 z" =
      some [⟨"093000 z", 0, 8, some 9, some 30, some 0, none, none, some "z",
             none, none, none⟩] := by
  constructor
  · decide
  · decide

/-- C6: timezone and offset decomposition.  `"093000 Z"` yields 09:30:00 with
the zone marker normalized to `"UTC"`; `"093000-0530"` yields the delta fields
sign `-`, hours 5, minutes 30 recovered by re-matching the raw delta substring
against `_regex_gmt`; and `"093000-05"`, whose delta has no minute portion,
leaves `gmt_delta_minutes` at the sentinel. -/
theorem C6_timezone_offset_decomposition :
    run "093000 Z" =
      some [⟨"093000 Z", 0, 8, some 9, some 30, some 0, none, none, some "UTC",
             none, none, none⟩] ∧
    run "093000-0530" =
      some [⟨"093000-0530", 0, 11, some 9, some 30, some 0, none, none, none,
             some "-", some 5, some 30⟩] ∧
    run "093000-05" =
      some [⟨"093000-05", 0, 9, some 9, some 30, some 0, none, none, none,
             some "-", some 5, none⟩] := by
  refine ⟨?_, ?_, ?_⟩
  · decide
  · decide
  · decide

/-- C8: re-matching each resolved candidate's saved matched text against its
own saved pattern always succeeds, so the fatal-assertion branch (modelled by
the `none` result of `run`) is unreachable and `run` completes normally on
every input. -/
theorem C8_assertion_never_fires (sentence : String) :
    (run sentence).isSome = true :=
  run_isSome sentence

end

/-! ### Candidate texts are slices of the cleaned sentence -/

theorem scanAll_text_slice {s : List Char} {pc : _Candidate} (h : pc ∈ scanAll s) :
    pc.match_text = String.mk ((s.drop pc.start).take (pc.end_ - pc.start)) := by
  obtain ⟨-, prev2, r, hmatch, htext, hend⟩ := scanAll_sound h
  have hcons := pymatch_consumes hmatch
  have hlen : pc.end_ - pc.start = r.consumed.length := by omega
  rw [htext, hlen, hcons, List.take_left]

theorem run_records {sentence : String} {recs : List TimeValue}
    (h : run sentence = some recs) :
    ∀ r ∈ recs, ∃ pc ∈ scanAll (_clean_sentence sentence.toList),
      normalizeCandidate pc = some r := by
  replace h : (match normalizeAll (_remove_overlap (sortLenDesc (scanAll
      (_clean_sentence sentence.toList)))) with
    | none => none
    | some results => some (sortStartAsc results)) = some recs := h
  split at h
  · exact absurd h (by simp)
  · next results hnm =>
      rw [Option.some.injEq] at h
      subst h
      intro r hr
      have hr2 : r ∈ results := (sortStartAsc_perm results).mem_iff.1 hr
      -- extract the candidate paired with r by normalizeAll
      have hmem : ∀ (l : List _Candidate) (rs : List TimeValue),
          normalizeAll l = some rs → ∀ x ∈ rs, ∃ pc ∈ l, normalizeCandidate pc = some x := by
        intro l
        induction l with
        | nil =>
            intro rs hl x hx
            simp only [normalizeAll, Option.some.injEq] at hl
            subst hl
            simp at hx
        | cons pc t ih =>
            intro rs hl x hx
            simp only [normalizeAll] at hl
            cases hm1 : normalizeCandidate pc with
            | none => rw [hm1] at hl; simp at hl
            | some y =>
                cases hm2 : normalizeAll t with
                | none => rw [hm1, hm2] at hl; simp at hl
                | some ys =>
                    rw [hm1, hm2, Option.some.injEq] at hl
                    subst hl
                    rcases List.mem_cons.1 hx with hx | hx
                    · exact ⟨pc, List.mem_cons_self pc t, hx ▸ hm1⟩
                    · obtain ⟨pc2, hpc2, hn2⟩ := ih ys hm2 x hx
                      exact ⟨pc2, List.mem_cons.2 (Or.inr hpc2), hn2⟩
      obtain ⟨pc, hpc, hn⟩ := hmem _ _ hnm r hr2
      refine ⟨pc, ?_, hn⟩
      have h1 : pc ∈ sortLenDesc (scanAll (_clean_sentence sentence.data)) :=
        remove_overlap_subset hpc
      exact (sortLenDesc_perm _).mem_iff.1 h1

section
set_option maxRecDepth 100000
set_option maxHeartbeats 1000000

/-- C7: preprocessing replaces each bracket character by exactly one space
(all other characters keep their offsets and the length is unchanged), and
every record's `text` equals the `[start, end)` slice of the preprocessed
input. -/
theorem C7_offset_preservation :
    (∀ (sentence : String),
       (_clean_sentence sentence.toList).length = sentence.toList.length ∧
       ∀ (i : Nat) (c : Char), sentence.toList[i]? = some c →
         ((c ∈ _str_brackets → (_clean_sentence sentence.toList)[i]? = some ' ') ∧
          (c ∉ _str_brackets → (_clean_sentence sentence.toList)[i]? = some c))) ∧
    (∀ (sentence : String) (recs : List TimeValue) (r : TimeValue),
       run sentence = some recs → r ∈ recs →
       r.text = String.mk (((_clean_sentence sentence.toList).drop r.start).take
         (r.end_ - r.start))) := by
  constructor
  · intro sentence
    constructor
    · simp [_clean_sentence]
    · intro i c hc
      constructor
      · intro hbr
        simp only [_clean_sentence, List.getElem?_map, hc, Option.map_some']
        rw [if_pos (List.contains_iff_exists_mem_beq.2 ⟨c, hbr, by simp⟩)]
      · intro hbr
        simp only [_clean_sentence, List.getElem?_map, hc, Option.map_some']
        rw [if_neg]
        intro habs
        exact hbr (List.mem_of_elem_eq_true habs)
  · intro sentence recs r h hr
    obtain ⟨pc, hpc, hn⟩ := run_records h r hr
    obtain ⟨htext, hstart, hend⟩ := normalizeCandidate_spans hn
    rw [htext, hstart, hend]
    exact scanAll_text_slice hpc

/-- C7 witness: on `"(4 am)"` the single record's text `"4 am"` is the
`[1, 5)` slice of the bracket-stripped sentence `" 4 am "`. -/
theorem C7_offset_preservation_witness :
    (⟨"4 am", 1, 5, some 4, none, none, none, some "am", none, none, none, none⟩ :
        TimeValue).text =
      String.mk (((_clean_sentence "(4 am)".toList).drop 1).take (5 - 1)) :=
  C7_offset_preservation.2 "(4 am)"
    [⟨"4 am", 1, 5, some 4, none, none, none, some "am", none, none, none, none⟩]
    ⟨"4 am", 1, 5, some 4, none, none, none, some "am", none, none, none, none⟩
    (by decide) (by decide)

end

/-! ### Normalization leaves uncaptured fields at the sentinel -/

theorem applyGmt_nongmt (acc : TimeValue) (kv : String × List Char) :
    (applyGmt acc kv).hours = acc.hours ∧ (applyGmt acc kv).minutes = acc.minutes ∧
    (applyGmt acc kv).seconds = acc.seconds ∧
    (applyGmt acc kv).fractional_seconds = acc.fractional_seconds ∧
    (applyGmt acc kv).am_pm = acc.am_pm ∧ (applyGmt acc kv).timezone = acc.timezone := by
  unfold applyGmt
  split
  · exact ⟨rfl, rfl, rfl, rfl, rfl, rfl⟩
  · split
    · exact ⟨rfl, rfl, rfl, rfl, rfl, rfl⟩
    · split
      · exact ⟨rfl, rfl, rfl, rfl, rfl, rfl⟩
      · exact ⟨rfl, rfl, rfl, rfl, rfl, rfl⟩

theorem applyGmtDelta_nongmt (acc : TimeValue) (v : List Char) :
    (applyGmtDelta acc v).hours = acc.hours ∧
    (applyGmtDelta acc v).minutes = acc.minutes ∧
    (applyGmtDelta acc v).seconds = acc.seconds ∧
    (applyGmtDelta acc v).fractional_seconds = acc.fractional_seconds ∧
    (applyGmtDelta acc v).am_pm = acc.am_pm ∧
    (applyGmtDelta acc v).timezone = acc.timezone := by
  have hfold : ∀ (caps : List (String × List Char)) (a : TimeValue),
      (caps.foldl applyGmt a).hours = a.hours ∧ (caps.foldl applyGmt a).minutes = a.minutes ∧
      (caps.foldl applyGmt a).seconds = a.seconds ∧
      (caps.foldl applyGmt a).fractional_seconds = a.fractional_seconds ∧
      (caps.foldl applyGmt a).am_pm = a.am_pm ∧ (caps.foldl applyGmt a).timezone = a.timezone := by
    intro caps
    induction caps with
    | nil => intro a; exact ⟨rfl, rfl, rfl, rfl, rfl, rfl⟩
    | cons kv t ih =>
        intro a
        simp only [List.foldl_cons]
        obtain ⟨i1, i2, i3, i4, i5, i6⟩ := ih (applyGmt a kv)
        obtain ⟨g1, g2, g3, g4, g5, g6⟩ := applyGmt_nongmt a kv
        exact ⟨i1.trans g1, i2.trans g2, i3.trans g3, i4.trans g4, i5.trans g5, i6.trans g6⟩
  unfold applyGmtDelta
  split
  · exact ⟨rfl, rfl, rfl, rfl, rfl, rfl⟩
  · exact hfold _ acc

theorem applyGroup_hours_ne {acc : TimeValue} {kv : String × List Char}
    (h : kv.1 ≠ "hours") : (applyGroup acc kv).hours = acc.hours := by
  unfold applyGroup
  split_ifs <;>
    first
      | rfl
      | exact absurd ‹kv.1 = "hours"› h
      | exact (applyGmtDelta_nongmt acc kv.2).1

theorem applyGroup_minutes_ne {acc : TimeValue} {kv : String × List Char}
    (h : kv.1 ≠ "minutes") : (applyGroup acc kv).minutes = acc.minutes := by
  unfold applyGroup
  split_ifs <;>
    first
      | rfl
      | exact absurd ‹kv.1 = "minutes"› h
      | exact (applyGmtDelta_nongmt acc kv.2).2.1

theorem applyGroup_seconds_ne {acc : TimeValue} {kv : String × List Char}
    (h : kv.1 ≠ "seconds") : (applyGroup acc kv).seconds = acc.seconds := by
  unfold applyGroup
  split_ifs <;>
    first
      | rfl
      | exact absurd ‹kv.1 = "seconds"› h
      | exact (applyGmtDelta_nongmt acc kv.2).2.2.1

theorem applyGroup_frac_ne {acc : TimeValue} {kv : String × List Char}
    (h : kv.1 ≠ "frac") : (applyGroup acc kv).fractional_seconds = acc.fractional_seconds := by
  unfold applyGroup
  split_ifs <;>
    first
      | rfl
      | exact absurd ‹kv.1 = "frac"› h
      | exact (applyGmtDelta_nongmt acc kv.2).2.2.2.1

theorem applyGroup_am_pm_ne {acc : TimeValue} {kv : String × List Char}
    (h : kv.1 ≠ "am_pm") : (applyGroup acc kv).am_pm = acc.am_pm := by
  unfold applyGroup
  split_ifs <;>
    first
      | rfl
      | exact absurd ‹kv.1 = "am_pm"› h
      | exact (applyGmtDelta_nongmt acc kv.2).2.2.2.2.1

theorem applyGroup_timezone_ne {acc : TimeValue} {kv : String × List Char}
    (h : kv.1 ≠ "timezone") : (applyGroup acc kv).timezone = acc.timezone := by
  unfold applyGroup
  split_ifs <;>
    first
      | rfl
      | exact absurd ‹kv.1 = "timezone"› h
      | exact (applyGmtDelta_nongmt acc kv.2).2.2.2.2.2

theorem applyGroup_gmts_ne {acc : TimeValue} {kv : String × List Char}
    (h : kv.1 ≠ "gmt_delta") :
    (applyGroup acc kv).gmt_delta_sign = acc.gmt_delta_sign ∧
    (applyGroup acc kv).gmt_delta_hours = acc.gmt_delta_hours ∧
    (applyGroup acc kv).gmt_delta_minutes = acc.gmt_delta_minutes := by
  unfold applyGroup
  split_ifs <;> exact ⟨rfl, rfl, rfl⟩

theorem key_ne_of_not_mem {kv : String × List Char}
    {t : List (String × List Char)} {key : String}
    (habs : ∀ v, (key, v) ∉ kv :: t) : kv.1 ≠ key := by
  intro hk
  have : (key, kv.2) ∈ kv :: t := by
    rw [← hk]
    exact List.mem_cons_self _ _
  exact habs kv.2 this

theorem not_mem_tail {kv : String × List Char} {t : List (String × List Char)}
    {key : String} (habs : ∀ v, (key, v) ∉ kv :: t) : ∀ v, (key, v) ∉ t :=
  fun v hv => habs v (List.mem_cons.2 (Or.inr hv))

theorem foldl_hours_absent : ∀ (caps : List (String × List Char)) (acc : TimeValue),
    (∀ v, ("hours", v) ∉ caps) → (caps.foldl applyGroup acc).hours = acc.hours := by
  intro caps
  induction caps with
  | nil => intro acc _; rfl
  | cons kv t ih =>
      intro acc habs
      simp only [List.foldl_cons]
      rw [ih _ (not_mem_tail habs), applyGroup_hours_ne (key_ne_of_not_mem habs)]

theorem foldl_minutes_absent : ∀ (caps : List (String × List Char)) (acc : TimeValue),
    (∀ v, ("minutes", v) ∉ caps) → (caps.foldl applyGroup acc).minutes = acc.minutes := by
  intro caps
  induction caps with
  | nil => intro acc _; rfl
  | cons kv t ih =>
      intro acc habs
      simp only [List.foldl_cons]
      rw [ih _ (not_mem_tail habs), applyGroup_minutes_ne (key_ne_of_not_mem habs)]

theorem foldl_seconds_absent : ∀ (caps : List (String × List Char)) (acc : TimeValue),
    (∀ v, ("seconds", v) ∉ caps) → (caps.foldl applyGroup acc).seconds = acc.seconds := by
  intro caps
  induction caps with
  | nil => intro acc _; rfl
  | cons kv t ih =>
      intro acc habs
      simp only [List.foldl_cons]
      rw [ih _ (not_mem_tail habs), applyGroup_seconds_ne (key_ne_of_not_mem habs)]

theorem foldl_frac_absent : ∀ (caps : List (String × List Char)) (acc : TimeValue),
    (∀ v, ("frac", v) ∉ caps) →
    (caps.foldl applyGroup acc).fractional_seconds = acc.fractional_seconds := by
  intro caps
  induction caps with
  | nil => intro acc _; rfl
  | cons kv t ih =>
      intro acc habs
      simp only [List.foldl_cons]
      rw [ih _ (not_mem_tail habs), applyGroup_frac_ne (key_ne_of_not_mem habs)]

theorem foldl_am_pm_absent : ∀ (caps : List (String × List Char)) (acc : TimeValue),
    (∀ v, ("am_pm", v) ∉ caps) → (caps.foldl applyGroup acc).am_pm = acc.am_pm := by
  intro caps
  induction caps with
  | nil => intro acc _; rfl
  | cons kv t ih =>
      intro acc habs
      simp only [List.foldl_cons]
      rw [ih _ (not_mem_tail habs), applyGroup_am_pm_ne (key_ne_of_not_mem habs)]

theorem foldl_timezone_absent : ∀ (caps : List (String × List Char)) (acc : TimeValue),
    (∀ v, ("timezone", v) ∉ caps) → (caps.foldl applyGroup acc).timezone = acc.timezone := by
  intro caps
  induction caps with
  | nil => intro acc _; rfl
  | cons kv t ih =>
      intro acc habs
      simp only [List.foldl_cons]
      rw [ih _ (not_mem_tail habs), applyGroup_timezone_ne (key_ne_of_not_mem habs)]

theorem foldl_gmts_absent : ∀ (caps : List (String × List Char)) (acc : TimeValue),
    (∀ v, ("gmt_delta", v) ∉ caps) →
    (caps.foldl applyGroup acc).gmt_delta_sign = acc.gmt_delta_sign ∧
    (caps.foldl applyGroup acc).gmt_delta_hours = acc.gmt_delta_hours ∧
    (caps.foldl applyGroup acc).gmt_delta_minutes = acc.gmt_delta_minutes := by
  intro caps
  induction caps with
  | nil => intro acc _; exact ⟨rfl, rfl, rfl⟩
  | cons kv t ih =>
      intro acc habs
      simp only [List.foldl_cons]
      obtain ⟨i1, i2, i3⟩ := ih (applyGroup acc kv) (not_mem_tail habs)
      obtain ⟨g1, g2, g3⟩ := applyGroup_gmts_ne (key_ne_of_not_mem habs)
      exact ⟨i1.trans g1, i2.trans g2, i3.trans g3⟩

section
set_option maxRecDepth 100000
set_option maxHeartbeats 1000000

/-- C9: absence of data is never an error.  If no pattern produces a match,
`run` returns the empty result list (no assertion failure); and inside any
found match, every schema field whose group captured nothing is left at the
single sentinel `none` (the record type itself has exactly the twelve schema
fields). -/
theorem C9_no_match_empty_and_sentinels :
    (∀ (sentence : String),
       scanAll (_clean_sentence sentence.toList) = [] → run sentence = some []) ∧
    (∀ (pc : _Candidate) (m : MRes),
       pymatch pc.regex none pc.match_text.toList = some m →
       normalizeCandidate pc = some (m.caps.foldl applyGroup (initRecord pc)) ∧
       (((∀ v, ("hours", v) ∉ m.caps) →
           (m.caps.foldl applyGroup (initRecord pc)).hours = none) ∧
        ((∀ v, ("minutes", v) ∉ m.caps) →
           (m.caps.foldl applyGroup (initRecord pc)).minutes = none) ∧
        ((∀ v, ("seconds", v) ∉ m.caps) →
           (m.caps.foldl applyGroup (initRecord pc)).seconds = none) ∧
        ((∀ v, ("frac", v) ∉ m.caps) →
           (m.caps.foldl applyGroup (initRecord pc)).fractional_seconds = none) ∧
        ((∀ v, ("am_pm", v) ∉ m.caps) →
           (m.caps.foldl applyGroup (initRecord pc)).am_pm = none) ∧
        ((∀ v, ("timezone", v) ∉ m.caps) →
           (m.caps.foldl applyGroup (initRecord pc)).timezone = none) ∧
        ((∀ v, ("gmt_delta", v) ∉ m.caps) →
           (m.caps.foldl applyGroup (initRecord pc)).gmt_delta_sign = none ∧
           (m.caps.foldl applyGroup (initRecord pc)).gmt_delta_hours = none ∧
           (m.caps.foldl applyGroup (initRecord pc)).gmt_delta_minutes = none))) := by
  constructor
  · intro sentence h
    have h2 : scanAll (_clean_sentence sentence.data) = [] := h
    show (match normalizeAll (_remove_overlap (sortLenDesc (scanAll
        (_clean_sentence sentence.data)))) with
      | none => none
      | some results => some (sortStartAsc results)) = some []
    rw [h2]
    rfl
  · intro pc m hm
    refine ⟨?_, ?_, ?_, ?_, ?_, ?_, ?_, ?_⟩
    · unfold normalizeCandidate
      rw [hm]
    · intro habs; rw [foldl_hours_absent m.caps _ habs]; rfl
    · intro habs; rw [foldl_minutes_absent m.caps _ habs]; rfl
    · intro habs; rw [foldl_seconds_absent m.caps _ habs]; rfl
    · intro habs; rw [foldl_frac_absent m.caps _ habs]; rfl
    · intro habs; rw [foldl_am_pm_absent m.caps _ habs]; rfl
    · intro habs; rw [foldl_timezone_absent m.caps _ habs]; rfl
    · intro habs
      obtain ⟨g1, g2, g3⟩ := foldl_gmts_absent m.caps (initRecord pc) habs
      exact ⟨g1.trans rfl, g2.trans rfl, g3.trans rfl⟩

/-- C9 witness: `"hello"` yields no candidates and `run` returns the empty
list; and for the concrete resolved candidate `"4 am"` of the
hour-with-meridiem pattern, whose re-match captures only `hours` and `am_pm`,
the minutes, seconds, fractional, timezone and delta fields all stay at the
sentinel. -/
theorem C9_witness :
    run "hello" = some [] ∧
    (([("hours", ['4']), ("am_pm", ['a', 'm'])].foldl applyGroup
        (initRecord ⟨0, 4, "4 am", _regex_h12_am_pm⟩)).minutes = none ∧
     ([("hours", ['4']), ("am_pm", ['a', 'm'])].foldl applyGroup
        (initRecord ⟨0, 4, "4 am", _regex_h12_am_pm⟩)).gmt_delta_sign = none) := by
  constructor
  · exact C9_no_match_empty_and_sentinels.1 "hello" (by decide)
  · have h := C9_no_match_empty_and_sentinels.2 ⟨0, 4, "4 am", _regex_h12_am_pm⟩
      ⟨['4', ' ', 'a', 'm'], some 'm', [], [("hours", ['4']), ("am_pm", ['a', 'm'])]⟩
      (by decide)
    exact ⟨h.2.2.1 (by intro v; simp), (h.2.2.2.2.2.2.2 (by intro v; simp)).1⟩

end

/-! ### What a group can capture: a context-free over-approximation -/

/-- Source `Consumes re u`: ignoring the surrounding context (word boundaries and
lookaheads always allowed), the pattern `re` can consume exactly `u`. -/
inductive Consumes : Regex → List Char → Prop
  | eps : Consumes .eps []
  | cls {cs : List Char} {c : Char} : c ∈ cs → Consumes (.cls cs) [c]
  | seq {a b : Regex} {u v : List Char} :
      Consumes a u → Consumes b v → Consumes (.seq a b) (u ++ v)
  | altL {a b : Regex} {u : List Char} : Consumes a u → Consumes (.alt a b) u
  | altR {a b : Regex} {u : List Char} : Consumes b u → Consumes (.alt a b) u
  | starCls {cs : List Char} {u : List Char} :
      (∀ c ∈ u, c ∈ cs) → Consumes (.starCls cs) u
  | plusCls {cs : List Char} {u : List Char} :
      u ≠ [] → (∀ c ∈ u, c ∈ cs) → Consumes (.plusCls cs) u
  | group {n : String} {a : Regex} {u : List Char} :
      Consumes a u → Consumes (.group n a) u
  | nla {cs : List Char} : Consumes (.nla cs) []
  | wb : Consumes .wb []

theorem mtch_Consumes : ∀ (re : Regex) (prev : Option Char) (s : List Char) (r : MRes),
    r ∈ mtch re prev s → Consumes re r.consumed := by
  intro re
  induction re with
  | eps =>
      intro prev s r h
      simp only [mtch, List.mem_singleton] at h
      subst h
      exact Consumes.eps
  | cls cs =>
      intro prev s r h
      cases s with
      | nil => simp [mtch] at h
      | cons c t =>
          simp only [mtch] at h
          split at h
          · next hc =>
              simp only [List.mem_singleton] at h
              subst h
              exact Consumes.cls (List.mem_of_elem_eq_true hc)
          · simp at h
  | seq a b iha ihb =>
      intro prev s r h
      simp only [mtch, List.mem_flatMap, List.mem_map] at h
      obtain ⟨r1, h1, r2, h2, hr⟩ := h
      subst hr
      exact Consumes.seq (iha prev s r1 h1) (ihb r1.newPrev r1.rest r2 h2)
  | alt a b iha ihb =>
      intro prev s r h
      simp only [mtch, List.mem_append] at h
      rcases h with h | h
      · exact Consumes.altL (iha prev s r h)
      · exact Consumes.altR (ihb prev s r h)
  | starCls cs =>
      intro prev s r h
      simp only [mtch, List.mem_map, List.mem_reverse, List.mem_range] at h
      obtain ⟨k, hk, hr⟩ := h
      subst hr
      refine Consumes.starCls ?_
      intro c hc
      have hall := take_all_of_le_runLen cs s k (Nat.lt_succ_iff.1 hk)
      exact List.mem_of_elem_eq_true (List.all_eq_true.1 hall c hc)
  | plusCls cs =>
      intro prev s r h
      simp only [mtch, List.mem_map, List.mem_reverse, List.mem_range] at h
      obtain ⟨k, hk, hr⟩ := h
      subst hr
      refine Consumes.plusCls ?_ ?_
      · intro habs
        have habs2 : s.take (k + 1) = [] := habs
        have h1 : (s.take (k + 1)).length = 0 := by rw [habs2]; rfl
        have h2 : k + 1 ≤ s.length :=
          le_trans (Nat.succ_le_of_lt hk) (runLen_le_length cs s)
        rw [List.length_take] at h1
        omega
      · intro c hc
        have hall := take_all_of_le_runLen cs s (k + 1) (Nat.succ_le_of_lt hk)
        exact List.mem_of_elem_eq_true (List.all_eq_true.1 hall c hc)
  | group n a ih =>
      intro prev s r h
      simp only [mtch, List.mem_map] at h
      obtain ⟨r1, h1, hr⟩ := h
      subst hr
      exact Consumes.group (ih prev s r1 h1)
  | nla cs =>
      intro prev s r h
      cases s with
      | nil =>
          simp only [mtch, List.mem_singleton] at h
          subst h
          exact Consumes.nla
      | cons c t =>
          simp only [mtch] at h
          split at h
          · simp at h
          · simp only [List.mem_singleton] at h
            subst h
            exact Consumes.nla
  | wb =>
      intro prev s r h
      simp only [mtch] at h
      split at h
      · simp only [List.mem_singleton] at h
        subst h
        exact Consumes.wb
      · simp at h

/-- Source `CapIn re n v`: the pattern `re` contains a group named `n` that can
capture exactly `v` (in some context). -/
inductive CapIn : Regex → String → List Char → Prop
  | here {n : String} {a : Regex} {v : List Char} :
      Consumes a v → CapIn (.group n a) n v
  | inGroup {n m : String} {a : Regex} {v : List Char} :
      CapIn a m v → CapIn (.group n a) m v
  | seqL {a b : Regex} {n : String} {v : List Char} :
      CapIn a n v → CapIn (.seq a b) n v
  | seqR {a b : Regex} {n : String} {v : List Char} :
      CapIn b n v → CapIn (.seq a b) n v
  | altL {a b : Regex} {n : String} {v : List Char} :
      CapIn a n v → CapIn (.alt a b) n v
  | altR {a b : Regex} {n : String} {v : List Char} :
      CapIn b n v → CapIn (.alt a b) n v

theorem mtch_CapIn : ∀ (re : Regex) (prev : Option Char) (s : List Char) (r : MRes)
    (n : String) (v : List Char),
    r ∈ mtch re prev s → (n, v) ∈ r.caps → CapIn re n v := by
  intro re
  induction re with
  | eps =>
      intro prev s r n v h hc
      simp only [mtch, List.mem_singleton] at h
      subst h
      simp at hc
  | cls cs =>
      intro prev s r n v h hc
      cases s with
      | nil => simp [mtch] at h
      | cons c t =>
          simp only [mtch] at h
          split at h
          · simp only [List.mem_singleton] at h
            subst h
            simp at hc
          · simp at h
  | seq a b iha ihb =>
      intro prev s r n v h hc
      simp only [mtch, List.mem_flatMap, List.mem_map] at h
      obtain ⟨r1, h1, r2, h2, hr⟩ := h
      subst hr
      simp only [List.mem_append] at hc
      rcases hc with hc | hc
      · exact CapIn.seqL (iha prev s r1 n v h1 hc)
      · exact CapIn.seqR (ihb r1.newPrev r1.rest r2 n v h2 hc)
  | alt a b iha ihb =>
      intro prev s r n v h hc
      simp only [mtch, List.mem_append] at h
      rcases h with h | h
      · exact CapIn.altL (iha prev s r n v h hc)
      · exact CapIn.altR (ihb prev s r n v h hc)
  | starCls cs =>
      intro prev s r n v h hc
      simp only [mtch, List.mem_map, List.mem_reverse, List.mem_range] at h
      obtain ⟨k, -, hr⟩ := h
      subst hr
      simp at hc
  | plusCls cs =>
      intro prev s r n v h hc
      simp only [mtch, List.mem_map, List.mem_reverse, List.mem_range] at h
      obtain ⟨k, -, hr⟩ := h
      subst hr
      simp at hc
  | group m a ih =>
      intro prev s r n v h hc
      simp only [mtch, List.mem_map] at h
      obtain ⟨r1, h1, hr⟩ := h
      subst hr
      simp only [List.mem_cons] at hc
      rcases hc with hc | hc
      · obtain ⟨h1e, h2e⟩ := Prod.mk.injEq .. ▸ hc
        subst h1e
        have := mtch_Consumes a prev s r1 h1
        rw [← h2e] at this
        exact CapIn.here this
      · exact CapIn.inGroup (ih prev s r1 n v h1 hc)
  | nla cs =>
      intro prev s r n v h hc
      cases s with
      | nil =>
          simp only [mtch, List.mem_singleton] at h
          subst h
          simp at hc
      | cons c t =>
          simp only [mtch] at h
          split at h
          · simp at h
          · simp only [List.mem_singleton] at h
            subst h
            simp at hc
  | wb =>
      intro prev s r n v h hc
      simp only [mtch] at h
      split at h
      · simp only [List.mem_singleton] at h
        subst h
        simp at hc
      · simp at h

/-- All bodies of groups named `n` in a pattern. -/
def capBodies (re : Regex) (n : String) : List Regex :=
  match re with
  | .group m a => (if m = n then [a] else []) ++ capBodies a n
  | .seq a b => capBodies a n ++ capBodies b n
  | .alt a b => capBodies a n ++ capBodies b n
  | _ => []

theorem capIn_capBodies : ∀ {re : Regex} {n : String} {v : List Char},
    CapIn re n v → ∃ b ∈ capBodies re n, Consumes b v := by
  intro re n v h
  induction h with
  | @here m a u hc =>
      exact ⟨a, by simp [capBodies], hc⟩
  | @inGroup m n2 a u hc ih =>
      obtain ⟨b, hb, hcb⟩ := ih
      refine ⟨b, ?_, hcb⟩
      simp only [capBodies, List.mem_append]
      exact Or.inr hb
  | @seqL a b n2 u hc ih =>
      obtain ⟨b2, hb, hcb⟩ := ih
      exact ⟨b2, by simp only [capBodies, List.mem_append]; exact Or.inl hb, hcb⟩
  | @seqR a b n2 u hc ih =>
      obtain ⟨b2, hb, hcb⟩ := ih
      exact ⟨b2, by simp only [capBodies, List.mem_append]; exact Or.inr hb, hcb⟩
  | @altL a b n2 u hc ih =>
      obtain ⟨b2, hb, hcb⟩ := ih
      exact ⟨b2, by simp only [capBodies, List.mem_append]; exact Or.inl hb, hcb⟩
  | @altR a b n2 u hc ih =>
      obtain ⟨b2, hb, hcb⟩ := ih
      exact ⟨b2, by simp only [capBodies, List.mem_append]; exact Or.inr hb, hcb⟩

theorem pysearchAux_sound (re : Regex) : ∀ (fuel : Nat) (prev : Option Char)
    (s : List Char) (m : MRes), pysearchAux re fuel prev s = some m →
    ∃ (prev2 : Option Char) (s2 : List Char), m ∈ mtch re prev2 s2 := by
  intro fuel
  induction fuel with
  | zero => intro prev s m h; simp [pysearchAux] at h
  | succ fuel ih =>
      intro prev s m h
      simp only [pysearchAux] at h
      split at h
      · next r hr =>
          rw [Option.some.injEq] at h
          subst h
          refine ⟨prev, s, ?_⟩
          unfold pymatch at hr
          exact List.mem_of_mem_head? hr
      · split at h
        · simp at h
        · exact ih _ _ m h

theorem pysearch_sound {re : Regex} {s : List Char} {m : MRes}
    (h : pysearch re s = some m) :
    ∃ (prev2 : Option Char) (s2 : List Char), m ∈ mtch re prev2 s2 :=
  pysearchAux_sound re (s.length + 1) none s m h

/-! ### Value bounds for the capture bodies of the catalog -/

theorem consumes_cls {cs : List Char} {u : List Char} (h : Consumes (.cls cs) u) :
    ∃ c, u = [c] ∧ c ∈ cs := by
  cases h
  exact ⟨_, rfl, by assumption⟩

theorem consumes_seq {a b : Regex} {u : List Char} (h : Consumes (.seq a b) u) :
    ∃ x y, u = x ++ y ∧ Consumes a x ∧ Consumes b y := by
  cases h
  exact ⟨_, _, rfl, by assumption, by assumption⟩

theorem consumes_alt {a b : Regex} {u : List Char} (h : Consumes (.alt a b) u) :
    Consumes a u ∨ Consumes b u := by
  cases h
  · exact Or.inl (by assumption)
  · exact Or.inr (by assumption)

theorem consumes_eps {u : List Char} (h : Consumes .eps u) : u = [] := by
  cases h; rfl

theorem consumes_nla {cs : List Char} {u : List Char} (h : Consumes (.nla cs) u) :
    u = [] := by
  cases h; rfl

theorem consumes_plus {cs : List Char} {u : List Char} (h : Consumes (.plusCls cs) u) :
    u ≠ [] ∧ ∀ c ∈ u, c ∈ cs := by
  cases h
  exact ⟨by assumption, by assumption⟩

theorem mem_digit_val {c : Char} (h : c ∈ digitChars) : c.toNat - 48 ≤ 9 := by
  fin_cases h <;> decide

theorem mem_d01_val {c : Char} (h : c ∈ d01) : c.toNat - 48 ≤ 1 := by
  fin_cases h <;> decide

theorem mem_d02_val {c : Char} (h : c ∈ d02) : c.toNat - 48 ≤ 2 := by
  fin_cases h <;> decide

theorem mem_d04_val {c : Char} (h : c ∈ d04) : c.toNat - 48 ≤ 4 := by
  fin_cases h <;> decide

theorem mem_d05_val {c : Char} (h : c ∈ d05) : c.toNat - 48 ≤ 5 := by
  fin_cases h <;> decide

theorem mem_d19_val {c : Char} (h : c ∈ d19) : c.toNat - 48 ≤ 9 := by
  fin_cases h <;> decide

theorem pyint_pair (c c2 : Char) :
    pyint [c, c2] = (c.toNat - 48) * 10 + (c2.toNat - 48) := by
  simp [pyint, List.foldl]

theorem pyint_single (c : Char) : pyint [c] = c.toNat - 48 := by
  simp [pyint, List.foldl]

/-- Any capture of the 24-hour-hours class is at most 24. -/
theorem h24_val {v : List Char} (h : Consumes _str_h24 v) : pyint v ≤ 24 := by
  rcases consumes_alt h with h2 | h2
  · obtain ⟨x, y, huv, hx, hy⟩ := consumes_seq h2
    obtain ⟨c, hx1, hc⟩ := consumes_cls hx
    obtain ⟨c2, hy1, hc2⟩ := consumes_cls hy
    subst hx1; subst hy1; subst huv
    rw [show ([c] ++ [c2] : List Char) = [c, c2] from rfl, pyint_pair]
    have := mem_d01_val hc
    have := mem_digit_val hc2
    omega
  · obtain ⟨x, y, huv, hx, hy⟩ := consumes_seq h2
    obtain ⟨c, hx1, hc⟩ := consumes_cls hx
    obtain ⟨c2, hy1, hc2⟩ := consumes_cls hy
    subst hx1; subst hy1; subst huv
    rw [show ([c] ++ [c2] : List Char) = [c, c2] from rfl, pyint_pair]
    have hc1 : c = '2' := by simpa using hc
    subst hc1
    have := mem_d04_val hc2
    simp only [show ('2' : Char).toNat - 48 = 2 from rfl]
    omega

/-- Any capture of the 12-hour-hours class is at most 12. -/
theorem h12_val {v : List Char} (h : Consumes _str_h12 v) : pyint v ≤ 12 := by
  rcases consumes_alt h with h2 | h2
  · obtain ⟨x, y, huv, hx, hy⟩ := consumes_seq h2
    obtain ⟨c2, hy1, hc2⟩ := consumes_cls hy
    rcases consumes_alt hx with hx2 | hx2
    · obtain ⟨c, hx1, hc⟩ := consumes_cls hx2
      subst hx1; subst hy1; subst huv
      rw [show ([c] ++ [c2] : List Char) = [c, c2] from rfl, pyint_pair]
      have hc1 : c = '0' := by simpa using hc
      subst hc1
      have := mem_d19_val hc2
      simp only [show ('0' : Char).toNat - 48 = 0 from rfl]
      omega
    · have hx1 := consumes_eps hx2
      subst hx1; subst hy1; subst huv
      rw [List.nil_append, pyint_single]
      have := mem_d19_val hc2
      omega
  · obtain ⟨x, y, huv, hx, hy⟩ := consumes_seq h2
    obtain ⟨c, hx1, hc⟩ := consumes_cls hx
    obtain ⟨c2, hy1, hc2⟩ := consumes_cls hy
    subst hx1; subst hy1; subst huv
    rw [show ([c] ++ [c2] : List Char) = [c, c2] from rfl, pyint_pair]
    have hc1 : c = '1' := by simpa using hc
    subst hc1
    have := mem_d02_val hc2
    simp only [show ('1' : Char).toNat - 48 = 1 from rfl]
    omega

/-- Any capture of the minutes class is at most 59. -/
theorem mm_val {v : List Char} (h : Consumes _str_MM v) : pyint v ≤ 59 := by
  obtain ⟨x, y, huv, hx, hy⟩ := consumes_seq h
  obtain ⟨c, hx1, hc⟩ := consumes_cls hx
  obtain ⟨c2, hy1, hc2⟩ := consumes_cls hy
  subst hx1; subst hy1; subst huv
  rw [show ([c] ++ [c2] : List Char) = [c, c2] from rfl, pyint_pair]
  have := mem_d05_val hc
  have := mem_digit_val hc2
  omega

/-- Any capture of the ISO seconds class is at most 60. -/
theorem iso_ss_val {v : List Char} (h : Consumes _str_iso_ss v) : pyint v ≤ 60 := by
  rcases consumes_alt h with h2 | h2
  · obtain ⟨x, y, huv, hx, hy⟩ := consumes_seq h2
    obtain ⟨c, hx1, hc⟩ := consumes_cls hx
    obtain ⟨c2, hy1, hc2⟩ := consumes_cls hy
    subst hx1; subst hy1; subst huv
    rw [show ([c] ++ [c2] : List Char) = [c, c2] from rfl, pyint_pair]
    have := mem_d05_val hc
    have := mem_digit_val hc2
    omega
  · obtain ⟨x, y, huv, hx, hy⟩ := consumes_seq h2
    obtain ⟨c, hx1, hc⟩ := consumes_cls hx
    obtain ⟨x2, y2, hy3, hx2, hy2⟩ := consumes_seq hy
    obtain ⟨c2, hx21, hc2⟩ := consumes_cls hx2
    have hy21 := consumes_eps hy2
    subst hx1; subst hx21; subst hy21; subst hy3; subst huv
    have hc1 : c = '6' := by simpa using hc
    have hc21 : c2 = '0' := by simpa using hc2
    subst hc1; subst hc21
    decide

/-- A capture of either fractional-seconds body is a separator followed by a
non-empty digit string. -/
theorem frac_val {sep : List Char} {v : List Char}
    (h : Consumes (Regex.seq (Regex.cls sep) (Regex.plusCls digitChars)) v) :
    v.drop 1 ≠ [] ∧ ∀ c ∈ v.drop 1, c ∈ digitChars := by
  obtain ⟨x, y, huv, hx, hy⟩ := consumes_seq h
  obtain ⟨c, hx1, hc⟩ := consumes_cls hx
  obtain ⟨hyne, hyd⟩ := consumes_plus hy
  subst hx1; subst huv
  simp only [List.cons_append, List.nil_append, List.drop_succ_cons, List.drop_zero]
  exact ⟨hyne, hyd⟩

/-- A capture of the sign class is the string `"+"` or `"-"`. -/
theorem sign_val {v : List Char} (h : Consumes (Regex.cls ['-', '+']) v) :
    String.mk v = "+" ∨ String.mk v = "-" := by
  obtain ⟨c, hv, hc⟩ := consumes_cls h
  subst hv
  fin_cases hc
  · exact Or.inr rfl
  · exact Or.inl rfl

/-- Strip the trailing negative lookahead from a group body. -/
theorem consumes_nla_wrapped {b : Regex} {cs : List Char} {v : List Char}
    (h : Consumes (Regex.seq b (Regex.nla cs)) v) : Consumes b v := by
  obtain ⟨x, y, huv, hx, hy⟩ := consumes_seq h
  have hy1 := consumes_nla hy
  subst hy1
  rw [List.append_nil] at huv
  subst huv
  exact hx

/-! ### Catalog-wide capture bounds -/

/-- Admissible bodies for the `hours` group across the catalog. -/
def bodyOkHours (b : Regex) : Bool :=
  b == _str_h24 || b == _str_h12 || b == Regex.seq _str_h24 (Regex.nla digitChars)

/-- Admissible bodies for the `minutes` group across the catalog. -/
def bodyOkMinutes (b : Regex) : Bool :=
  b == _str_MM || b == Regex.seq _str_MM (Regex.nla digitChars)

/-- Admissible bodies for the `seconds` group across the catalog. -/
def bodyOkSeconds (b : Regex) : Bool :=
  b == _str_MM || b == Regex.seq _str_MM (Regex.nla digitChars) || b == _str_iso_ss

/-- Admissible bodies for the `frac` group across the catalog. -/
def bodyOkFrac (b : Regex) : Bool :=
  b == _str_frac || b == Regex.seq (rchar '.') (Regex.plusCls digitChars)

section
set_option maxRecDepth 100000
set_option maxHeartbeats 2000000

theorem hours_catalog_check :
    (_regexes.all (fun re => (capBodies re "hours").all bodyOkHours)) = true := by decide

theorem minutes_catalog_check :
    (_regexes.all (fun re => (capBodies re "minutes").all bodyOkMinutes)) = true := by decide

theorem seconds_catalog_check :
    (_regexes.all (fun re => (capBodies re "seconds").all bodyOkSeconds)) = true := by decide

theorem frac_catalog_check :
    (_regexes.all (fun re => (capBodies re "frac").all bodyOkFrac)) = true := by decide

theorem gmt_bodies_check :
    capBodies _regex_gmt "gmt_sign" = [Regex.cls ['-', '+']] ∧
    capBodies _regex_gmt "gmt_hours" = [_str_h24] ∧
    capBodies _regex_gmt "gmt_minutes" = [_str_MM] := by decide

end

theorem catalog_hours_val {re : Regex} {v : List Char} (hre : re ∈ _regexes)
    (hcap : CapIn re "hours" v) : pyint v ≤ 24 := by
  obtain ⟨b, hb, hc⟩ := capIn_capBodies hcap
  have h1 := List.all_eq_true.1 (List.all_eq_true.1 hours_catalog_check re hre) b hb
  simp only [bodyOkHours, Bool.or_eq_true, beq_iff_eq] at h1
  rcases h1 with (h1 | h1) | h1
  · subst h1; exact h24_val hc
  · subst h1; exact le_trans (h12_val hc) (by omega)
  · subst h1; exact h24_val (consumes_nla_wrapped hc)

theorem catalog_minutes_val {re : Regex} {v : List Char} (hre : re ∈ _regexes)
    (hcap : CapIn re "minutes" v) : pyint v ≤ 59 := by
  obtain ⟨b, hb, hc⟩ := capIn_capBodies hcap
  have h1 := List.all_eq_true.1 (List.all_eq_true.1 minutes_catalog_check re hre) b hb
  simp only [bodyOkMinutes, Bool.or_eq_true, beq_iff_eq] at h1
  rcases h1 with h1 | h1
  · subst h1; exact mm_val hc
  · subst h1; exact mm_val (consumes_nla_wrapped hc)

theorem catalog_seconds_val {re : Regex} {v : List Char} (hre : re ∈ _regexes)
    (hcap : CapIn re "seconds" v) : pyint v ≤ 60 := by
  obtain ⟨b, hb, hc⟩ := capIn_capBodies hcap
  have h1 := List.all_eq_true.1 (List.all_eq_true.1 seconds_catalog_check re hre) b hb
  simp only [bodyOkSeconds, Bool.or_eq_true, beq_iff_eq] at h1
  rcases h1 with (h1 | h1) | h1
  · subst h1; exact le_trans (mm_val hc) (by omega)
  · subst h1; exact le_trans (mm_val (consumes_nla_wrapped hc)) (by omega)
  · subst h1; exact iso_ss_val hc

theorem catalog_frac_val {re : Regex} {v : List Char} (hre : re ∈ _regexes)
    (hcap : CapIn re "frac" v) :
    v.drop 1 ≠ [] ∧ ∀ c ∈ v.drop 1, c ∈ digitChars := by
  obtain ⟨b, hb, hc⟩ := capIn_capBodies hcap
  have h1 := List.all_eq_true.1 (List.all_eq_true.1 frac_catalog_check re hre) b hb
  simp only [bodyOkFrac, Bool.or_eq_true, beq_iff_eq] at h1
  rcases h1 with h1 | h1
  · subst h1; exact frac_val hc
  · subst h1; exact frac_val hc

theorem gmt_sign_val {v : List Char} (hcap : CapIn _regex_gmt "gmt_sign" v) :
    String.mk v = "+" ∨ String.mk v = "-" := by
  obtain ⟨b, hb, hc⟩ := capIn_capBodies hcap
  rw [gmt_bodies_check.1] at hb
  simp only [List.mem_singleton] at hb
  subst hb
  exact sign_val hc

theorem gmt_hours_val {v : List Char} (hcap : CapIn _regex_gmt "gmt_hours" v) :
    pyint v ≤ 24 := by
  obtain ⟨b, hb, hc⟩ := capIn_capBodies hcap
  rw [gmt_bodies_check.2.1] at hb
  simp only [List.mem_singleton] at hb
  subst hb
  exact h24_val hc

theorem gmt_minutes_val {v : List Char} (hcap : CapIn _regex_gmt "gmt_minutes" v) :
    pyint v ≤ 59 := by
  obtain ⟨b, hb, hc⟩ := capIn_capBodies hcap
  rw [gmt_bodies_check.2.2] at hb
  simp only [List.mem_singleton] at hb
  subst hb
  exact mm_val hc

/-! ### Which capture wrote each populated field -/

theorem foldl_hours_writer : ∀ (caps : List (String × List Char)) (acc : TimeValue)
    (x : Nat), (caps.foldl applyGroup acc).hours = some x →
    acc.hours = some x ∨ ∃ v, ("hours", v) ∈ caps ∧ x = pyint v := by
  intro caps
  induction caps with
  | nil => intro acc x h; exact Or.inl h
  | cons kv t ih =>
      intro acc x h
      obtain ⟨k, w⟩ := kv
      simp only [List.foldl_cons] at h
      rcases ih _ x h with h2 | ⟨v, hv, hx⟩
      · by_cases hk : k = "hours"
        · subst hk
          have hset : (applyGroup acc ("hours", w)).hours = some (pyint w) := by
            unfold applyGroup
            rw [if_pos rfl]
          rw [hset] at h2
          exact Or.inr ⟨w, List.mem_cons_self _ t, (Option.some.inj h2).symm⟩
        · rw [applyGroup_hours_ne hk] at h2
          exact Or.inl h2
      · exact Or.inr ⟨v, List.mem_cons.2 (Or.inr hv), hx⟩

theorem foldl_minutes_writer : ∀ (caps : List (String × List Char)) (acc : TimeValue)
    (x : Nat), (caps.foldl applyGroup acc).minutes = some x →
    acc.minutes = some x ∨ ∃ v, ("minutes", v) ∈ caps ∧ x = pyint v := by
  intro caps
  induction caps with
  | nil => intro acc x h; exact Or.inl h
  | cons kv t ih =>
      intro acc x h
      obtain ⟨k, w⟩ := kv
      simp only [List.foldl_cons] at h
      rcases ih _ x h with h2 | ⟨v, hv, hx⟩
      · by_cases hk : k = "minutes"
        · subst hk
          have hset : (applyGroup acc ("minutes", w)).minutes = some (pyint w) := by
            unfold applyGroup
            rw [if_neg (by simp), if_pos rfl]
          rw [hset] at h2
          exact Or.inr ⟨w, List.mem_cons_self _ t, (Option.some.inj h2).symm⟩
        · rw [applyGroup_minutes_ne hk] at h2
          exact Or.inl h2
      · exact Or.inr ⟨v, List.mem_cons.2 (Or.inr hv), hx⟩

theorem foldl_seconds_writer : ∀ (caps : List (String × List Char)) (acc : TimeValue)
    (x : Nat), (caps.foldl applyGroup acc).seconds = some x →
    acc.seconds = some x ∨ ∃ v, ("seconds", v) ∈ caps ∧ x = pyint v := by
  intro caps
  induction caps with
  | nil => intro acc x h; exact Or.inl h
  | cons kv t ih =>
      intro acc x h
      obtain ⟨k, w⟩ := kv
      simp only [List.foldl_cons] at h
      rcases ih _ x h with h2 | ⟨v, hv, hx⟩
      · by_cases hk : k = "seconds"
        · subst hk
          have hset : (applyGroup acc ("seconds", w)).seconds = some (pyint w) := by
            unfold applyGroup
            rw [if_neg (by simp), if_neg (by simp), if_pos rfl]
          rw [hset] at h2
          exact Or.inr ⟨w, List.mem_cons_self _ t, (Option.some.inj h2).symm⟩
        · rw [applyGroup_seconds_ne hk] at h2
          exact Or.inl h2
      · exact Or.inr ⟨v, List.mem_cons.2 (Or.inr hv), hx⟩

theorem foldl_frac_writer : ∀ (caps : List (String × List Char)) (acc : TimeValue)
    (x : String), (caps.foldl applyGroup acc).fractional_seconds = some x →
    acc.fractional_seconds = some x ∨
    ∃ v, ("frac", v) ∈ caps ∧ x = String.mk (v.drop 1) := by
  intro caps
  induction caps with
  | nil => intro acc x h; exact Or.inl h
  | cons kv t ih =>
      intro acc x h
      obtain ⟨k, w⟩ := kv
      simp only [List.foldl_cons] at h
      rcases ih _ x h with h2 | ⟨v, hv, hx⟩
      · by_cases hk : k = "frac"
        · subst hk
          have hset : (applyGroup acc ("frac", w)).fractional_seconds =
              some (String.mk (w.drop 1)) := by
            unfold applyGroup
            rw [if_neg (by simp), if_neg (by simp), if_neg (by simp), if_pos rfl]
          rw [hset] at h2
          exact Or.inr ⟨w, List.mem_cons_self _ t, (Option.some.inj h2).symm⟩
        · rw [applyGroup_frac_ne hk] at h2
          exact Or.inl h2
      · exact Or.inr ⟨v, List.mem_cons.2 (Or.inr hv), hx⟩

theorem foldl_am_pm_writer : ∀ (caps : List (String × List Char)) (acc : TimeValue)
    (x : String), (caps.foldl applyGroup acc).am_pm = some x →
    acc.am_pm = some x ∨ x = STR_AM ∨ x = STR_PM := by
  intro caps
  induction caps with
  | nil => intro acc x h; exact Or.inl h
  | cons kv t ih =>
      intro acc x h
      obtain ⟨k, w⟩ := kv
      simp only [List.foldl_cons] at h
      rcases ih _ x h with h2 | hx
      · by_cases hk : k = "am_pm"
        · subst hk
          have hset : (applyGroup acc ("am_pm", w)).am_pm =
              some (if w.contains 'a' || w.contains 'A' then STR_AM else STR_PM) := by
            unfold applyGroup
            rw [if_neg (by simp), if_neg (by simp), if_neg (by simp),
              if_neg (by simp), if_pos rfl]
            split
            · rfl
            · rfl
          rw [hset] at h2
          have := (Option.some.inj h2).symm
          by_cases hw : (w.contains 'a' || w.contains 'A') = true
          · rw [if_pos hw] at this
            exact Or.inr (Or.inl this)
          · rw [if_neg hw] at this
            exact Or.inr (Or.inr this)
        · rw [applyGroup_am_pm_ne hk] at h2
          exact Or.inl h2
      · exact Or.inr hx

theorem applyGmt_sign_ne {acc : TimeValue} {kv : String × List Char}
    (h : kv.1 ≠ "gmt_sign") : (applyGmt acc kv).gmt_delta_sign = acc.gmt_delta_sign := by
  unfold applyGmt
  split_ifs <;>
    first
      | rfl
      | exact absurd ‹kv.1 = "gmt_sign"› h

theorem applyGmt_hours_ne {acc : TimeValue} {kv : String × List Char}
    (h : kv.1 ≠ "gmt_hours") : (applyGmt acc kv).gmt_delta_hours = acc.gmt_delta_hours := by
  unfold applyGmt
  split_ifs <;> rfl

theorem applyGmt_minutes_ne {acc : TimeValue} {kv : String × List Char}
    (h : kv.1 ≠ "gmt_minutes") :
    (applyGmt acc kv).gmt_delta_minutes = acc.gmt_delta_minutes := by
  unfold applyGmt
  split_ifs <;> rfl

theorem foldl_gmt_sign_writer : ∀ (caps : List (String × List Char)) (acc : TimeValue)
    (x : String), (caps.foldl applyGmt acc).gmt_delta_sign = some x →
    acc.gmt_delta_sign = some x ∨ ∃ v, ("gmt_sign", v) ∈ caps ∧ x = String.mk v := by
  intro caps
  induction caps with
  | nil => intro acc x h; exact Or.inl h
  | cons kv t ih =>
      intro acc x h
      obtain ⟨k, w⟩ := kv
      simp only [List.foldl_cons] at h
      rcases ih _ x h with h2 | ⟨v, hv, hx⟩
      · by_cases hk : k = "gmt_sign"
        · subst hk
          have hset : (applyGmt acc ("gmt_sign", w)).gmt_delta_sign =
              some (String.mk w) := by
            unfold applyGmt
            rw [if_pos rfl]
          rw [hset] at h2
          exact Or.inr ⟨w, List.mem_cons_self _ t, (Option.some.inj h2).symm⟩
        · rw [applyGmt_sign_ne hk] at h2
          exact Or.inl h2
      · exact Or.inr ⟨v, List.mem_cons.2 (Or.inr hv), hx⟩

theorem foldl_gmt_hours_writer : ∀ (caps : List (String × List Char)) (acc : TimeValue)
    (x : Nat), (caps.foldl applyGmt acc).gmt_delta_hours = some x →
    acc.gmt_delta_hours = some x ∨ ∃ v, ("gmt_hours", v) ∈ caps ∧ x = pyint v := by
  intro caps
  induction caps with
  | nil => intro acc x h; exact Or.inl h
  | cons kv t ih =>
      intro acc x h
      obtain ⟨k, w⟩ := kv
      simp only [List.foldl_cons] at h
      rcases ih _ x h with h2 | ⟨v, hv, hx⟩
      · by_cases hk : k = "gmt_hours"
        · subst hk
          have hset : (applyGmt acc ("gmt_hours", w)).gmt_delta_hours =
              some (pyint w) := by
            unfold applyGmt
            rw [if_neg (by simp), if_pos rfl]
          rw [hset] at h2
          exact Or.inr ⟨w, List.mem_cons_self _ t, (Option.some.inj h2).symm⟩
        · rw [applyGmt_hours_ne hk] at h2
          exact Or.inl h2
      · exact Or.inr ⟨v, List.mem_cons.2 (Or.inr hv), hx⟩

theorem foldl_gmt_minutes_writer : ∀ (caps : List (String × List Char)) (acc : TimeValue)
    (x : Nat), (caps.foldl applyGmt acc).gmt_delta_minutes = some x →
    acc.gmt_delta_minutes = some x ∨ ∃ v, ("gmt_minutes", v) ∈ caps ∧ x = pyint v := by
  intro caps
  induction caps with
  | nil => intro acc x h; exact Or.inl h
  | cons kv t ih =>
      intro acc x h
      obtain ⟨k, w⟩ := kv
      simp only [List.foldl_cons] at h
      rcases ih _ x h with h2 | ⟨v, hv, hx⟩
      · by_cases hk : k = "gmt_minutes"
        · subst hk
          have hset : (applyGmt acc ("gmt_minutes", w)).gmt_delta_minutes =
              some (pyint w) := by
            unfold applyGmt
            rw [if_neg (by simp), if_neg (by simp), if_pos rfl]
          rw [hset] at h2
          exact Or.inr ⟨w, List.mem_cons_self _ t, (Option.some.inj h2).symm⟩
        · rw [applyGmt_minutes_ne hk] at h2
          exact Or.inl h2
      · exact Or.inr ⟨v, List.mem_cons.2 (Or.inr hv), hx⟩

theorem applyGmtDelta_sign_writer {acc : TimeValue} {w : List Char} {x : String}
    (h : (applyGmtDelta acc w).gmt_delta_sign = some x) :
    acc.gmt_delta_sign = some x ∨
    ∃ m v, pysearch _regex_gmt w = some m ∧ ("gmt_sign", v) ∈ m.caps ∧
      x = String.mk v := by
  unfold applyGmtDelta at h
  split at h
  · exact Or.inl h
  · next m hm =>
      rcases foldl_gmt_sign_writer m.caps acc x h with h2 | ⟨v, hv, hx⟩
      · exact Or.inl h2
      · exact Or.inr ⟨m, v, hm, hv, hx⟩

theorem applyGmtDelta_hours_writer {acc : TimeValue} {w : List Char} {x : Nat}
    (h : (applyGmtDelta acc w).gmt_delta_hours = some x) :
    acc.gmt_delta_hours = some x ∨
    ∃ m v, pysearch _regex_gmt w = some m ∧ ("gmt_hours", v) ∈ m.caps ∧
      x = pyint v := by
  unfold applyGmtDelta at h
  split at h
  · exact Or.inl h
  · next m hm =>
      rcases foldl_gmt_hours_writer m.caps acc x h with h2 | ⟨v, hv, hx⟩
      · exact Or.inl h2
      · exact Or.inr ⟨m, v, hm, hv, hx⟩

theorem applyGmtDelta_minutes_writer {acc : TimeValue} {w : List Char} {x : Nat}
    (h : (applyGmtDelta acc w).gmt_delta_minutes = some x) :
    acc.gmt_delta_minutes = some x ∨
    ∃ m v, pysearch _regex_gmt w = some m ∧ ("gmt_minutes", v) ∈ m.caps ∧
      x = pyint v := by
  unfold applyGmtDelta at h
  split at h
  · exact Or.inl h
  · next m hm =>
      rcases foldl_gmt_minutes_writer m.caps acc x h with h2 | ⟨v, hv, hx⟩
      · exact Or.inl h2
      · exact Or.inr ⟨m, v, hm, hv, hx⟩

theorem applyGroup_gmt_delta_eq {acc : TimeValue} {w : List Char} :
    applyGroup acc ("gmt_delta", w) = applyGmtDelta acc w := by
  unfold applyGroup
  rw [if_neg (by simp), if_neg (by simp), if_neg (by simp), if_neg (by simp),
    if_neg (by simp), if_neg (by simp), if_pos rfl]

theorem foldl_group_gmt_sign_writer : ∀ (caps : List (String × List Char))
    (acc : TimeValue) (x : String),
    (caps.foldl applyGroup acc).gmt_delta_sign = some x →
    acc.gmt_delta_sign = some x ∨
    ∃ w m v, ("gmt_delta", w) ∈ caps ∧ pysearch _regex_gmt w = some m ∧
      ("gmt_sign", v) ∈ m.caps ∧ x = String.mk v := by
  intro caps
  induction caps with
  | nil => intro acc x h; exact Or.inl h
  | cons kv t ih =>
      intro acc x h
      obtain ⟨k, w⟩ := kv
      simp only [List.foldl_cons] at h
      rcases ih _ x h with h2 | ⟨w2, m, v, hw, hm, hv, hx⟩
      · by_cases hk : k = "gmt_delta"
        · subst hk
          rw [applyGroup_gmt_delta_eq] at h2
          rcases applyGmtDelta_sign_writer h2 with h3 | ⟨m, v, hm, hv, hx⟩
          · exact Or.inl h3
          · exact Or.inr ⟨w, m, v, List.mem_cons_self _ t, hm, hv, hx⟩
        · rw [(applyGroup_gmts_ne hk).1] at h2
          exact Or.inl h2
      · exact Or.inr ⟨w2, m, v, List.mem_cons.2 (Or.inr hw), hm, hv, hx⟩

theorem foldl_group_gmt_hours_writer : ∀ (caps : List (String × List Char))
    (acc : TimeValue) (x : Nat),
    (caps.foldl applyGroup acc).gmt_delta_hours = some x →
    acc.gmt_delta_hours = some x ∨
    ∃ w m v, ("gmt_delta", w) ∈ caps ∧ pysearch _regex_gmt w = some m ∧
      ("gmt_hours", v) ∈ m.caps ∧ x = pyint v := by
  intro caps
  induction caps with
  | nil => intro acc x h; exact Or.inl h
  | cons kv t ih =>
      intro acc x h
      obtain ⟨k, w⟩ := kv
      simp only [List.foldl_cons] at h
      rcases ih _ x h with h2 | ⟨w2, m, v, hw, hm, hv, hx⟩
      · by_cases hk : k = "gmt_delta"
        · subst hk
          rw [applyGroup_gmt_delta_eq] at h2
          rcases applyGmtDelta_hours_writer h2 with h3 | ⟨m, v, hm, hv, hx⟩
          · exact Or.inl h3
          · exact Or.inr ⟨w, m, v, List.mem_cons_self _ t, hm, hv, hx⟩
        · rw [(applyGroup_gmts_ne hk).2.1] at h2
          exact Or.inl h2
      · exact Or.inr ⟨w2, m, v, List.mem_cons.2 (Or.inr hw), hm, hv, hx⟩

theorem foldl_group_gmt_minutes_writer : ∀ (caps : List (String × List Char))
    (acc : TimeValue) (x : Nat),
    (caps.foldl applyGroup acc).gmt_delta_minutes = some x →
    acc.gmt_delta_minutes = some x ∨
    ∃ w m v, ("gmt_delta", w) ∈ caps ∧ pysearch _regex_gmt w = some m ∧
      ("gmt_minutes", v) ∈ m.caps ∧ x = pyint v := by
  intro caps
  induction caps with
  | nil => intro acc x h; exact Or.inl h
  | cons kv t ih =>
      intro acc x h
      obtain ⟨k, w⟩ := kv
      simp only [List.foldl_cons] at h
      rcases ih _ x h with h2 | ⟨w2, m, v, hw, hm, hv, hx⟩
      · by_cases hk : k = "gmt_delta"
        · subst hk
          rw [applyGroup_gmt_delta_eq] at h2
          rcases applyGmtDelta_minutes_writer h2 with h3 | ⟨m, v, hm, hv, hx⟩
          · exact Or.inl h3
          · exact Or.inr ⟨w, m, v, List.mem_cons_self _ t, hm, hv, hx⟩
        · rw [(applyGroup_gmts_ne hk).2.2] at h2
          exact Or.inl h2
      · exact Or.inr ⟨w2, m, v, List.mem_cons.2 (Or.inr hw), hm, hv, hx⟩

section
set_option maxRecDepth 100000
set_option maxHeartbeats 1000000

/-- C10: range invariants on populated fields of every returned record.
`hours` and `gmt_delta_hours` are at most 24, `minutes` and
`gmt_delta_minutes` at most 59, `seconds` at most 60 (leap second), `am_pm`
is exactly `"am"` or `"pm"`, `gmt_delta_sign` exactly `"+"` or `"-"`, and
`fractional_seconds` is a non-empty digit string.  (The fields are natural
numbers, so the lower bound 0 is inherent.) -/
theorem C10_field_ranges (sentence : String) (recs : List TimeValue) (r : TimeValue)
    (hrun : run sentence = some recs) (hr : r ∈ recs) :
    (∀ h, r.hours = some h → h ≤ 24) ∧
    (∀ m2, r.minutes = some m2 → m2 ≤ 59) ∧
    (∀ s2, r.seconds = some s2 → s2 ≤ 60) ∧
    (∀ gh, r.gmt_delta_hours = some gh → gh ≤ 24) ∧
    (∀ gm, r.gmt_delta_minutes = some gm → gm ≤ 59) ∧
    (∀ x, r.am_pm = some x → x = "am" ∨ x = "pm") ∧
    (∀ x, r.gmt_delta_sign = some x → x = "+" ∨ x = "-") ∧
    (∀ f, r.fractional_seconds = some f →
       f.toList ≠ [] ∧ ∀ c ∈ f.toList, c ∈ digitChars) := by
  obtain ⟨pc, hpc, hn⟩ := run_records hrun r hr
  have hre : pc.regex ∈ _regexes := (scanAll_sound hpc).1
  unfold normalizeCandidate at hn
  split at hn
  · simp at hn
  · next m hm =>
      rw [Option.some.injEq] at hn
      have hmem : m ∈ mtch pc.regex none pc.match_text.toList :=
        List.mem_of_mem_head? hm
      have hcapin : ∀ n v, (n, v) ∈ m.caps → CapIn pc.regex n v :=
        fun n v hc => mtch_CapIn pc.regex none pc.match_text.toList m n v hmem hc
      subst hn
      refine ⟨?_, ?_, ?_, ?_, ?_, ?_, ?_, ?_⟩
      · intro h hh
        rcases foldl_hours_writer m.caps (initRecord pc) h hh with h2 | ⟨v, hv, hx⟩
        · simp [initRecord] at h2
        · subst hx
          exact catalog_hours_val hre (hcapin _ _ hv)
      · intro m2 hh
        rcases foldl_minutes_writer m.caps (initRecord pc) m2 hh with h2 | ⟨v, hv, hx⟩
        · simp [initRecord] at h2
        · subst hx
          exact catalog_minutes_val hre (hcapin _ _ hv)
      · intro s2 hh
        rcases foldl_seconds_writer m.caps (initRecord pc) s2 hh with h2 | ⟨v, hv, hx⟩
        · simp [initRecord] at h2
        · subst hx
          exact catalog_seconds_val hre (hcapin _ _ hv)
      · intro gh hh
        rcases foldl_group_gmt_hours_writer m.caps (initRecord pc) gh hh with
          h2 | ⟨w, m2, v, -, hm2, hv, hx⟩
        · simp [initRecord] at h2
        · subst hx
          obtain ⟨prev2, s2, hmem2⟩ := pysearch_sound hm2
          exact gmt_hours_val (mtch_CapIn _regex_gmt prev2 s2 m2 _ _ hmem2 hv)
      · intro gm hh
        rcases foldl_group_gmt_minutes_writer m.caps (initRecord pc) gm hh with
          h2 | ⟨w, m2, v, -, hm2, hv, hx⟩
        · simp [initRecord] at h2
        · subst hx
          obtain ⟨prev2, s2, hmem2⟩ := pysearch_sound hm2
          exact gmt_minutes_val (mtch_CapIn _regex_gmt prev2 s2 m2 _ _ hmem2 hv)
      · intro x hh
        rcases foldl_am_pm_writer m.caps (initRecord pc) x hh with h2 | hx | hx
        · simp [initRecord] at h2
        · exact Or.inl hx
        · exact Or.inr hx
      · intro x hh
        rcases foldl_group_gmt_sign_writer m.caps (initRecord pc) x hh with
          h2 | ⟨w, m2, v, -, hm2, hv, hx⟩
        · simp [initRecord] at h2
        · subst hx
          obtain ⟨prev2, s2, hmem2⟩ := pysearch_sound hm2
          exact gmt_sign_val (mtch_CapIn _regex_gmt prev2 s2 m2 _ _ hmem2 hv)
      · intro f hh
        rcases foldl_frac_writer m.caps (initRecord pc) f hh with h2 | ⟨v, hv, hx⟩
        · simp [initRecord] at h2
        · subst hx
          have hdig := catalog_frac_val hre (hcapin _ _ hv)
          exact hdig

/-- C10 witness: on the record returned for `"093000-0530"`, the populated
fields satisfy the range bounds. -/
theorem C10_field_ranges_witness : (5 : Nat) ≤ 24 ∧ (30 : Nat) ≤ 59 := by
  have h := C10_field_ranges "093000-0530"
    [⟨"093000-0530", 0, 11, some 9, some 30, some 0, none, none, none,
      some "-", some 5, some 30⟩]
    ⟨"093000-0530", 0, 11, some 9, some 30, some 0, none, none, none,
      some "-", some 5, some 30⟩
    (by decide) (by simp)
  exact ⟨h.2.2.2.1 5 rfl, h.2.2.2.2.1 30 rfl⟩

end

end TimeFinder
